import Mathlib

/-!
Verification of the rb-okvs repository (RB-OKVS oblivious key-value store and
the volume-hiding encrypted multi-map layered on top of it).

The Rust source is shallowly embedded:

* `sp_core::U256` values are modelled as `ℕ` together with explicit
  `% 2^256` truncation exactly where the 256-bit width matters (left shifts);
  `trailing_zeros`, `bits` and single-bit tests are modelled by fuel-based
  executable functions plus `Nat.testBit`.
* The banded Gaussian solver `simple_gauss` (src/utils.rs), the matrix
  builder `create_sorted_matrix` and the `encode`/`decode` facade
  (src/okvs.rs) are translated function by function.  The external hash
  primitives (Blake2b, SHA-256, AES-256-GCM) are out-of-scope collaborators
  of the repository and enter the embedding as function parameters, so all
  theorems quantify over every possible adapter behaviour that respects the
  adapters' interfaces.
* Fallible Rust paths (`Result`) become `Except RbError`; Rust `panic!`
  sites that claims talk about (the `copy_from_slice` in `encode_value`)
  become `Option`.
-/

set_option maxRecDepth 100000

/-- Error taxonomy of src/error.rs: `ZeroRow(usize)` and `Decode(usize)`. -/
inductive RbError where
  | zeroRow (i : ℕ)
  | decode (i : ℕ)
deriving DecidableEq, Repr

/-! ### U256 primitives (src/utils.rs `bit`, `xor`, and `sp_core::U256` ops) -/

/-- Fuel-based trailing-zero count: `tzAux fuel u` is the number of trailing
zero bits of `u`, as long as `u` has a set bit among its low `fuel` bits. -/
def tzAux : ℕ → ℕ → ℕ
  | 0, _ => 0
  | fuel + 1, u => if u % 2 = 1 then 0 else tzAux fuel (u / 2) + 1

/-- `U256::trailing_zeros`: 256 on zero, otherwise the index of the lowest
set bit (every modelled value is `< 2^256`). -/
def tz256 (u : ℕ) : ℕ := if u = 0 then 256 else tzAux 256 u

/-- Fuel-based bit length. -/
def bitsAux : ℕ → ℕ → ℕ
  | 0, _ => 0
  | fuel + 1, u => if u = 0 then 0 else bitsAux fuel (u / 2) + 1

/-- `U256::bits`: number of bits needed to represent the value, 0 for 0. -/
def bitsU (u : ℕ) : ℕ := bitsAux 256 u

/-- `bit(u, index)` of src/utils.rs: test bit `index` via the `MASK` table.
The Rust function indexes one of the four 64-bit limbs; for every index
below 256 that is exactly `Nat.testBit`. -/
def bitU (u i : ℕ) : Bool := u.testBit i

/-- `xor(a, b, start_a, start_b)` of src/utils.rs.  `U256` shifts drop the
bits moved beyond position 255, hence the explicit `% 2^256` on the left
shifts. -/
def xorU (a b : ℕ) (sa sb : ℕ) : ℕ :=
  if sa = sb then b ^^^ a
  else if sa < sb then
    let d := sb - sa
    (((b >>> d) ^^^ a) <<< d) % 2 ^ 256
  else
    let d := sa - sb
    ((((b <<< d) % 2 ^ 256)) ^^^ a) >>> d

/-- `inner_product(m, x)` of src/utils.rs: XOR together the entries of `x`
at the positions of the set bits of `m`.  The Rust code iterates the bit
positions `0..m.bits()` in four 64-bit chunks; the chunking is only an
optimisation, so the embedding iterates the same range directly.  Rust
panics when a set bit lies beyond `x`; the embedding totalises that case
with `dflt` (no theorem below exercises it: the band width is always at
most the available slice length). -/
def innerProduct {V : Type} (dflt : V) (vxor : V → V → V) (m : ℕ) (x : List V) : V :=
  (List.range (bitsU m)).foldl
    (fun acc i => if m.testBit i then vxor acc (x.getD i dflt) else acc) dflt

/-! ### The banded Gauss solver `simple_gauss` (src/utils.rs) -/

/-- One row of the band matrix: start position, band bits, y value.  The
Rust code keeps three parallel vectors (`start_pos`, `bands`, `y`); the
embedding zips them. -/
structure GRow (V : Type) where
  s : ℕ
  b : ℕ
  yv : V
deriving DecidableEq, Repr

/-- A processed row: as `GRow` plus its recorded pivot. -/
structure PRow (V : Type) where
  s : ℕ
  b : ℕ
  p : ℕ
  yv : V
deriving DecidableEq, Repr

/-- The inner loop of forward elimination for one pivot row: walk the later
rows, stop at the first row whose start exceeds the pivot, and XOR the pivot
row (band `a`, trailing zeros `f`, pivot column `p`, y value `yi`) into every
visited row having a set bit in the pivot column. -/
def innerLoop {V : Type} (vxor : V → V → V) (a f p : ℕ) (yi : V) :
    List (GRow V) → List (GRow V)
  | [] => []
  | r :: rest =>
    if p < r.s then r :: rest
    else if bitU r.b (p - r.s) then
      ⟨r.s, xorU a r.b f (p - r.s), vxor r.yv yi⟩ :: innerLoop vxor a f p yi rest
    else r :: innerLoop vxor a f p yi rest

/-- Forward elimination of `simple_gauss`: process the rows in order,
recording each pivot `start + trailing_zeros(band)` and failing with
`ZeroRow i` when row `i` has become all-zero.  `fuel` is the number of
rows still to process; `innerLoop` preserves the list length, so calling
with `fuel = rows.length` (as `simpleGauss` does) processes every row. -/
def forward {V : Type} (vxor : V → V → V) :
    ℕ → ℕ → List (GRow V) → Except RbError (List (PRow V))
  | _, _, [] => .ok []
  | 0, _, _ :: _ => .ok []
  | fuel + 1, idx, r :: rest =>
    let f := tz256 r.b
    if f = 256 then .error (.zeroRow idx)
    else
      match forward vxor fuel (idx + 1) (innerLoop vxor r.b f (f + r.s) r.yv rest) with
      | .error e => .error e
      | .ok out => .ok (⟨r.s, r.b, f + r.s, r.yv⟩ :: out)

/-- Back substitution of `simple_gauss`:
`x[pivot[i]] = inner_product(band[i], x[start[i]..]) ^ y[i]` for `i` from
`n-1` down to `0`, starting from the all-default vector of length `cols`.
(`List.set` out of range is a no-op where Rust would panic; the pivot-range
theorem below shows the pivots stay below `cols` under the adapter
interface, and every concrete instance keeps them in range.) -/
def backSub {V : Type} (dflt : V) (vxor : V → V → V) (cols : ℕ)
    (rows : List (PRow V)) : List V :=
  rows.reverse.foldl
    (fun x r => x.set r.p (vxor (innerProduct dflt vxor r.b (x.drop r.s)) r.yv))
    (List.replicate cols dflt)

/-- Zip the three parallel vectors of `simple_gauss` into rows.  The Rust
function asserts the three lengths agree; all uses below have equal
lengths. -/
def zipRows {V : Type} : List ℕ → List ℕ → List V → List (GRow V)
  | s :: ss, b :: bs, y :: ys => ⟨s, b, y⟩ :: zipRows ss bs ys
  | _, _, _ => []

/-- `simple_gauss(y, bands, start_pos, cols)` of src/utils.rs. -/
def simpleGauss {V : Type} (dflt : V) (vxor : V → V → V)
    (y : List V) (bands : List ℕ) (startPos : List ℕ) (cols : ℕ) :
    Except RbError (List V) :=
  let rows := zipRows startPos bands y
  match forward vxor rows.length 0 rows with
  | .error e => .error e
  | .ok prs => .ok (backSub dflt vxor cols prs)

/-! ### RB-OKVS parameters and facade (src/okvs.rs) -/

/-- `RbOkvs::new`: `columns = ((1.0 + EPSILON) * kv_count as f64) as usize`
with `EPSILON = 0.1`.  The `as usize` cast truncates toward zero, and for
every `kv_count` below `2^49` the f64 rounding error of `1.1 * n` is far
smaller than the distance to the next integer, so the cast equals
`⌊11·n/10⌋`. -/
def columnsRb (kvCount : ℕ) : ℕ := 11 * kvCount / 10

/-- `((LAMBDA as f64 + 15.21) / 0.2691) as usize` with `LAMBDA = 40`: the
exact quotient is `552100/2691 = 205.16…`, and the f64 evaluation stays well
within the unit interval around it, so the truncating cast gives 205 (the
source comments `// 205`). -/
def bandWidthRaw : ℕ := 552100 / 2691

/-- `RbOkvs::new`: the band width is the raw width if it is below
`columns`, else `columns * 80 / 100`. -/
def bandWidthRb (kvCount : ℕ) : ℕ :=
  if bandWidthRaw < columnsRb kvCount then bandWidthRaw
  else columnsRb kvCount * 80 / 100

/-- `U256::from_little_endian`: little-endian byte list to number. -/
def bytesToNatLE : List ℕ → ℕ
  | [] => 0
  | b :: rest => b + 256 * bytesToNatLE rest

/-- `v[0] |= 1` of `OkvsKey::hash_to_band` (src/types.rs).  Rust panics on
an empty vector (which happens exactly when `band_width < 8`); the claims
and instances below only use widths of at least 8. -/
def setLowBit : List ℕ → List ℕ
  | [] => []
  | b :: rest => (if b % 2 = 1 then b else b + 1) :: rest

/-- `hash(data, to_bytes_size)` of src/utils.rs, parameterised by the
external Blake2b-512 digest `blake64` (64 bytes): sizes up to 64 take a
prefix of the digest, larger sizes concatenate full digests.  `fuel` bounds
the chunk recursion; `hashBytes` supplies enough. -/
def hashBytesAux (blake64 : List ℕ → List ℕ) (data : List ℕ) : ℕ → ℕ → List ℕ
  | 0, _ => []
  | fuel + 1, n =>
    if n ≤ 64 then (blake64 data).take n
    else blake64 data ++ hashBytesAux blake64 data fuel (n - 64)

def hashBytes (blake64 : List ℕ → List ℕ) (data : List ℕ) (n : ℕ) : List ℕ :=
  hashBytesAux blake64 data n n

/-- `OkvsKey::hash_to_band(band_width)` (src/types.rs): hash the key bytes
to `band_width / 8` bytes, force the lowest bit to 1, read little-endian. -/
def hashToBand (blake64 : List ℕ → List ℕ) (keyBytes : List ℕ) (w : ℕ) : ℕ :=
  bytesToNatLE (setLowBit (hashBytes blake64 keyBytes (w / 8)))

/-- `OkvsKey::hash_to_index(range)` (src/types.rs): an 8-byte Blake2b
digest read as a little-endian u64, reduced modulo `range`.  The digest
value is abstracted into the parameter `h8`. -/
def hashToIndex (h8 : List ℕ → ℕ) (keyBytes : List ℕ) (range : ℕ) : ℕ :=
  h8 keyBytes % range

/-- One unsorted row record of `create_sorted_matrix`: start position, band,
absolute first-one position, y value. -/
structure MRow (V : Type) where
  s : ℕ
  b : ℕ
  fo : ℕ
  yv : V
deriving DecidableEq, Repr

/-- The per-input-pair pass of `RbOkvs::create_sorted_matrix` (src/okvs.rs):
hash each key to its band and start, compute the absolute first-one
position, and fail with `ZeroRow i` (input index) if a band is all zero.
`first_one_index` is not among the shipped sources; spec §4.4 fixes it to
`trailing_zeros`, matching the all-zero check against 256. -/
def buildRows {K V : Type} (hI : K → ℕ → ℕ) (hB : K → ℕ → ℕ) (cols w : ℕ) :
    ℕ → List (K × V) → Except RbError (List (MRow V))
  | _, [] => .ok []
  | i, (k, v) :: rest =>
    let band := hB k w
    let start := hI k (cols - w)
    let fo := tz256 band
    if fo = 256 then .error (.zeroRow i)
    else
      match buildRows hI hB cols w (i + 1) rest with
      | .error e => .error e
      | .ok rs => .ok (⟨start, band, start + fo, v⟩ :: rs)

/-- Stable insertion by ascending `fo`, modelling `Vec::sort_by` (a stable
sort) with the comparator `a.1.cmp(&b.1)` on first-one positions: `r` is
inserted in front of the first element whose key is not smaller, so earlier
input rows precede later ones on equal keys. -/
def insertByFo {V : Type} (r : MRow V) : List (MRow V) → List (MRow V)
  | [] => [r]
  | q :: rest => if q.fo < r.fo then q :: insertByFo r rest else r :: q :: rest

def sortByFo {V : Type} : List (MRow V) → List (MRow V)
  | [] => []
  | r :: rest => insertByFo r (sortByFo rest)

/-- `RbOkvs::create_sorted_matrix`: build all rows, then emit them sorted
by ascending first-one position (stably). -/
def createSortedMatrix {K V : Type} (hI : K → ℕ → ℕ) (hB : K → ℕ → ℕ)
    (cols w : ℕ) (input : List (K × V)) : Except RbError (List (MRow V)) :=
  match buildRows hI hB cols w 0 input with
  | .error e => .error e
  | .ok rs => .ok (sortByFo rs)

/-- `RbOkvs::encode` (src/okvs.rs): sorted matrix, then the banded solver.
The shipped okvs.rs passes the sorted `first_one_pos` and the band width on
to a six-argument `simple_gauss` that is not among the sources; the solver
in src/utils.rs (the one the claims cite, matching spec §4.4) takes the
values, bands, start positions and `cols`, and recomputes first-one
positions itself. -/
def rbEncode {K V : Type} (dflt : V) (vxor : V → V → V)
    (hI : K → ℕ → ℕ) (hB : K → ℕ → ℕ) (cols w : ℕ)
    (input : List (K × V)) : Except RbError (List V) :=
  match createSortedMatrix hI hB cols w input with
  | .error e => .error e
  | .ok rows =>
    simpleGauss dflt vxor (rows.map MRow.yv) (rows.map MRow.b) (rows.map MRow.s) cols

/-- `RbOkvs::decode` (src/okvs.rs): recompute start and band for the key and
take the inner product with the encoding slice starting at `start`. -/
def rbDecode {K V : Type} (dflt : V) (vxor : V → V → V)
    (hI : K → ℕ → ℕ) (hB : K → ℕ → ℕ) (cols w : ℕ)
    (enc : List V) (key : K) : V :=
  innerProduct dflt vxor (hB key w) (enc.drop (hI key (cols - w)))

/-- Decidable equality for `Except` results, so that concrete runs of the
embedded functions can be checked by `decide`. -/
instance {E A : Type} [DecidableEq E] [DecidableEq A] : DecidableEq (Except E A) := fun x y =>
  match x, y with
  | .ok a, .ok b =>
    match decEq a b with
    | .isTrue h => .isTrue (congrArg Except.ok h)
    | .isFalse h => .isFalse (fun hh => h (Except.ok.inj hh))
  | .error a, .error b =>
    match decEq a b with
    | .isTrue h => .isTrue (congrArg Except.error h)
    | .isFalse h => .isFalse (fun hh => h (Except.error.inj hh))
  | .ok _, .error _ => .isFalse (fun hh => Except.noConfusion hh)
  | .error _, .ok _ => .isFalse (fun hh => Except.noConfusion hh)

/-! ### Bit-level characterisation of `xor` (src/utils.rs) -/

/-- Bit-level semantics of `xor(a, b, start_a, start_b)`: the result lives in
`b`'s coordinate frame; its bit `q` combines bit `q` of `b` with the bit of
`a` that shares the same absolute column (index `q + start_a - start_b`),
and any position whose counterpart falls outside `[0, 256)` is forced to
zero by the `U256` shifts. -/
theorem xorU_testBit (a b sa sb q : ℕ) (ha : a < 2 ^ 256) (hb : b < 2 ^ 256) :
    (xorU a b sa sb).testBit q =
      if q < 256 ∧ sb ≤ q + sa ∧ q + sa - sb < 256
      then ((b.testBit q).xor (a.testBit (q + sa - sb)))
      else false := by
  unfold xorU
  rcases lt_trichotomy sa sb with hlt | heq | hgt
  · rw [if_neg (by omega), if_pos hlt]
    rw [Nat.testBit_mod_two_pow, Nat.testBit_shiftLeft]
    by_cases hq : q < 256
    · by_cases hd : sb - sa ≤ q
      · rw [Nat.testBit_xor, Nat.testBit_shiftRight]
        have h1 : sb - sa + (q - (sb - sa)) = q := by omega
        have h2 : q + sa - sb = q - (sb - sa) := by omega
        rw [h1, h2, if_pos ⟨hq, by omega, by omega⟩]
        simp [hq, hd]
      · rw [if_neg (by omega)]
        simp [hd]
    · rw [if_neg (by omega)]
      simp [hq]
  · subst heq
    rw [if_pos rfl]
    by_cases hq : q < 256
    · rw [if_pos ⟨hq, by omega, by omega⟩, Nat.testBit_xor, Nat.add_sub_cancel]
    · rw [if_neg (by omega)]
      exact Nat.testBit_lt_two_pow
        (lt_of_lt_of_le (Nat.xor_lt_two_pow hb ha) (Nat.pow_le_pow_right (by norm_num) (by omega)))
  · rw [if_neg (by omega), if_neg (by omega)]
    rw [Nat.testBit_shiftRight, Nat.testBit_xor, Nat.testBit_mod_two_pow, Nat.testBit_shiftLeft]
    by_cases hin : sa - sb + q < 256
    · have h1 : q + sa - sb = sa - sb + q := by omega
      rw [if_pos ⟨by omega, by omega, by omega⟩, h1]
      have h2 : sa - sb + q - (sa - sb) = q := by omega
      simp [hin, h2]
    · rw [if_neg (by omega)]
      have h3 : a.testBit (sa - sb + q) = false :=
        Nat.testBit_lt_two_pow
          (lt_of_lt_of_le ha (Nat.pow_le_pow_right (by norm_num) (by omega)))
      simp [hin, h3]

/-! ### Claim C9: `xor` alignment semantics -/

/-- C9 counterexample.  The claim says `xor(a, b, start_a, start_b)` equals
`(b >> (start_b − start_a)) XOR a` when `start_a < start_b` and
`(b << (start_a − start_b)) XOR a` when `start_a > start_b`.  At
`a = b = 1` with offsets `(0, 1)` the function returns `2` while the
claimed expression is `1`, and with offsets `(1, 0)` it returns `1` while
the claimed expression is `3`: the function shifts the combination back
into `b`'s frame instead of leaving it in `a`'s. -/
theorem c9_xor_aligned_counterexample :
    xorU 1 1 0 1 = 2 ∧ ((1 : ℕ) >>> (1 - 0) ^^^ 1) = 1 ∧ (2 : ℕ) ≠ 1 ∧
    xorU 1 1 1 0 = 1 ∧ ((1 : ℕ) <<< (1 - 0) ^^^ 1) = 3 ∧ (1 : ℕ) ≠ 3 := by
  decide

/-- C9 amended.  `xor(a, b, start_a, start_b)` returns the XOR of `b` with
`a` re-aligned so that column `start_a` of `a` meets column `start_b` of
`b`, expressed in `b`'s coordinate frame (not `a`'s): bit `q` of the result
is bit `q` of `b` XOR bit `q + start_a − start_b` of `a` whenever `q < 256`
and that partner index lies in `[0, 256)`, and `0` otherwise (positions
shifted out of the 256-bit word are dropped). -/
theorem c9_xor_aligned_amended (a b sa sb q : ℕ) (ha : a < 2 ^ 256) (hb : b < 2 ^ 256) :
    (xorU a b sa sb).testBit q =
      if q < 256 ∧ sb ≤ q + sa ∧ q + sa - sb < 256
      then ((b.testBit q).xor (a.testBit (q + sa - sb)))
      else false :=
  xorU_testBit a b sa sb q ha hb

theorem c9_xor_aligned_amended_witness :
    (5 : ℕ) < 2 ^ 256 ∧ (3 : ℕ) < 2 ^ 256 ∧
    (xorU 5 3 2 1).testBit 1 =
      if 1 < 256 ∧ 1 ≤ 1 + 2 ∧ 1 + 2 - 1 < 256
      then (((3 : ℕ).testBit 1).xor ((5 : ℕ).testBit (1 + 2 - 1)))
      else false :=
  ⟨by norm_num, by norm_num,
    c9_xor_aligned_amended 5 3 2 1 1 (by norm_num) (by norm_num)⟩

/-! ### Claim C5: the band-width parameter -/

/-- C5 counterexample.  For `kv_count = 200` the constructor picks
`columns = 220` and band width `205`, but the claimed formula
`min(⌈(40 + 15.21)/0.2691⌉, ⌊0.8·cols⌋) = min(206, 176) = 176` differs:
the code truncates the quotient to 205 instead of taking the ceiling 206,
and compares it against `columns` rather than against `⌊0.8·cols⌋`. -/
theorem c5_band_width_counterexample :
    columnsRb 200 = 220 ∧
    bandWidthRb 200 = 205 ∧
    min ⌈((40 : ℚ) + 15.21) / 0.2691⌉₊ ⌊(0.8 : ℚ) * (220 : ℚ)⌋₊ = 176 ∧
    (205 : ℕ) ≠ 176 ∧
    (205 : ℕ) ≠ ⌈((40 : ℚ) + 15.21) / 0.2691⌉₊ := by
  have h1 : ⌈((40 : ℚ) + 15.21) / 0.2691⌉₊ = 206 := by
    rw [Nat.ceil_eq_iff (by norm_num)]
    norm_num
  have h2 : ⌊(0.8 : ℚ) * (220 : ℚ)⌋₊ = 176 := by
    norm_num
  refine ⟨by decide, by decide, ?_, by decide, ?_⟩
  · rw [h1, h2]
    decide
  · rw [h1]
    norm_num

/-- C5 amended.  The band width is `⌊(λ + 15.21)/0.2691⌋ = 205` (floor, not
ceiling) whenever that lies below `columns`, and `⌊0.8·columns⌋` otherwise;
the choice compares the raw width against `columns`, not a two-sided
minimum. -/
theorem c5_band_width_amended (n : ℕ) :
    bandWidthRb n =
      (if 205 < columnsRb n then 205 else ⌊(0.8 : ℚ) * (columnsRb n : ℚ)⌋₊) ∧
    (205 : ℕ) = ⌊((40 : ℚ) + 15.21) / 0.2691⌋₊ := by
  constructor
  · have hraw : bandWidthRaw = 205 := by decide
    have hfloor : ⌊(0.8 : ℚ) * (columnsRb n : ℚ)⌋₊ = columnsRb n * 80 / 100 := by
      have h8 : (0.8 : ℚ) * (columnsRb n : ℚ) = ((columnsRb n * 80 : ℕ) : ℚ) / ((100 : ℕ) : ℚ) := by
        push_cast
        ring
      rw [h8, Nat.floor_div_nat, Nat.floor_natCast]
    rw [bandWidthRb, hraw, hfloor]
  · have : ((40 : ℚ) + 15.21) / 0.2691 = ((552100 : ℕ) : ℚ) / ((2691 : ℕ) : ℚ) := by
      norm_num
    rw [this, Nat.floor_div_nat, Nat.floor_natCast]

/-! ### Claim C7 (counterexample): pivot monotonicity fails -/

/-- C7 counterexample.  Four rows with starts `[0,1,1,2]` (ascending) and
bands `[33, 33, 17, 3]` (every band has bit 0 set, as the adapter forces):
forward elimination completes without `ZeroRow`, but the recorded pivots
are `[0, 1, 5, 2]` — row 2's pivot jumps to column 5 after an elimination,
and row 3 then pivots at the smaller column 2, so the pivots are not
monotone (they are, however, pairwise distinct and inside `[0, cols)`;
see the amended theorem). -/
theorem c7_pivot_monotonicity_counterexample :
    (forward (V := ℕ) Nat.xor 4 0 (zipRows [0, 1, 1, 2] [33, 33, 17, 3] [0, 0, 0, 0])).map
        (List.map PRow.p) = .ok [0, 1, 5, 2] ∧
    ((0 : ℕ) ≤ 1 ∧ (1 : ℕ) ≤ 1 ∧ (1 : ℕ) ≤ 2) ∧
    (∀ b ∈ [33, 33, 17, 3], Nat.testBit b 0 = true) ∧
    ¬ ((0 : ℕ) < 1 ∧ (1 : ℕ) < 5 ∧ (5 : ℕ) < 2) := by
  decide

/-! ### Claim C6: `hash_to_band` -/

/-- Byte-list values below 256 give a number below `2^(8·len)`. -/
theorem bytesToNatLE_lt (l : List ℕ) (h : ∀ b ∈ l, b < 256) :
    bytesToNatLE l < 2 ^ (8 * l.length) := by
  induction l with
  | nil => simp [bytesToNatLE]
  | cons b rest ih =>
    have hb : b < 256 := h b (by simp)
    have hz : bytesToNatLE rest < 2 ^ (8 * rest.length) :=
      ih (fun x hx => h x (by simp [hx]))
    have : 2 ^ (8 * (b :: rest).length) = 256 * 2 ^ (8 * rest.length) := by
      simp [List.length_cons]
      ring
    rw [this, bytesToNatLE]
    nlinarith

theorem setLowBit_length (l : List ℕ) : (setLowBit l).length = l.length := by
  cases l <;> simp [setLowBit]

theorem setLowBit_bytes (l : List ℕ) (h : ∀ b ∈ l, b < 256) :
    ∀ b ∈ setLowBit l, b < 256 := by
  cases l with
  | nil => simp [setLowBit]
  | cons b rest =>
    intro x hx
    have hb : b < 256 := h b (by simp)
    rcases List.mem_cons.mp hx with hhd | htl
    · subst hhd
      by_cases hpar : b % 2 = 1 <;> simp [setLowBit, hpar] <;> omega
    · exact h x (by simp [htl])

/-- `hash` for byte sizes of at most 64 is a digest prefix. -/
theorem hashBytes_small (blake64 : List ℕ → List ℕ) (d : List ℕ) (n : ℕ)
    (hn : n ≤ 64) (h0 : 0 < n) :
    hashBytes blake64 d n = (blake64 d).take n := by
  cases n with
  | zero => omega
  | succ m => simp [hashBytes, hashBytesAux, hn]

/-- The spec-side description of `hash_to_band` (spec §4.1), for comparison
with the implementation: take `⌈w/8⌉` bytes of the hash, truncate to
exactly `w` bits, then force bit 0 to 1. -/
def hashToBandSpec (blake64 : List ℕ → List ℕ) (keyBytes : List ℕ) (w : ℕ) : ℕ :=
  (bytesToNatLE (hashBytes blake64 keyBytes ((w + 7) / 8))) % 2 ^ w ||| 1

/-- C6 counterexample.  With a digest starting `[0, 1, …]` and band width
`w = 9`, the implementation takes `⌊9/8⌋ = 1` byte and produces the band
`1`, while the claimed procedure (take `⌈9/8⌉ = 2` bytes, truncate to 9
bits, force bit 0) produces `257`: `hash_to_band` uses `⌊w/8⌋` bytes, not
`⌈w/8⌉`, so for widths that are not a multiple of 8 the top `w mod 8`
bits never come from the hash. -/
theorem c6_hash_to_band_counterexample :
    hashToBand (fun _ => 0 :: 1 :: List.replicate 62 0) [0] 9 = 1 ∧
    hashToBandSpec (fun _ => 0 :: 1 :: List.replicate 62 0) [0] 9 = 257 ∧
    (1 : ℕ) ≠ 257 := by
  refine ⟨?_, ?_, by decide⟩ <;> decide

/-- C6 amended.  For widths `8 ≤ w ≤ 256` and any digest of 64 bytes,
`hash_to_band(key, w)` takes `⌊w/8⌋` bytes of the hash (so the band is an
`8·⌊w/8⌋`-bit string and every bit at position `≥ w` — indeed at position
`≥ 8·⌊w/8⌋` — is zero) and forces bit 0 to 1, so `bit(band, 0) = 1` for
every produced band (the P4 band invariant holds). -/
theorem c6_hash_to_band_amended (blake64 : List ℕ → List ℕ) (kb : List ℕ) (w : ℕ)
    (hw8 : 8 ≤ w) (hw : w ≤ 256)
    (hlen : (blake64 kb).length = 64) (hbytes : ∀ b ∈ blake64 kb, b < 256) :
    (hashToBand blake64 kb w).testBit 0 = true ∧
    hashToBand blake64 kb w < 2 ^ (8 * (w / 8)) ∧
    (∀ i, w ≤ i → (hashToBand blake64 kb w).testBit i = false) := by
  have hdiv1 : 0 < w / 8 := Nat.div_pos hw8 (by norm_num)
  have hdiv64 : w / 8 ≤ 64 := by omega
  have hsmall : hashBytes blake64 kb (w / 8) = (blake64 kb).take (w / 8) :=
    hashBytes_small blake64 kb (w / 8) hdiv64 hdiv1
  have htklen : ((blake64 kb).take (w / 8)).length = w / 8 := by
    rw [List.length_take, hlen]
    omega
  have htkbytes : ∀ b ∈ (blake64 kb).take (w / 8), b < 256 :=
    fun b hb => hbytes b (List.take_subset _ _ hb)
  have hbound : hashToBand blake64 kb w < 2 ^ (8 * (w / 8)) := by
    have := bytesToNatLE_lt (setLowBit ((blake64 kb).take (w / 8)))
      (setLowBit_bytes _ htkbytes)
    rw [setLowBit_length, htklen] at this
    rw [hashToBand, hsmall]
    exact this
  refine ⟨?_, hbound, ?_⟩
  · rw [hashToBand, hsmall]
    rcases htk : (blake64 kb).take (w / 8) with _ | ⟨b, rest⟩
    · rw [htk] at htklen
      simp at htklen
      omega
    · rw [Nat.testBit_zero]
      by_cases hpar : b % 2 = 1 <;> simp [setLowBit, hpar, bytesToNatLE] <;> omega
  · intro i hi
    have h8 : 8 * (w / 8) ≤ w := Nat.mul_div_le w 8 |>.trans_eq (by ring_nf) |>.trans (le_refl w)
    exact Nat.testBit_lt_two_pow
      (lt_of_lt_of_le hbound (Nat.pow_le_pow_right (by norm_num) (by omega)))

theorem c6_hash_to_band_amended_witness :
    (8 : ℕ) ≤ 205 ∧ (205 : ℕ) ≤ 256 ∧
    ((fun _ : List ℕ => List.replicate 64 7) []).length = 64 ∧
    (∀ b ∈ (fun _ : List ℕ => List.replicate 64 7) [], b < 256) ∧
    (hashToBand (fun _ => List.replicate 64 7) [] 205).testBit 0 = true ∧
    hashToBand (fun _ => List.replicate 64 7) [] 205 < 2 ^ (8 * (205 / 8)) :=
  ⟨by norm_num, by norm_num, by decide, by decide,
    (c6_hash_to_band_amended (fun _ => List.replicate 64 7) [] 205
      (by norm_num) (by norm_num) (by decide) (by decide)).1,
    (c6_hash_to_band_amended (fun _ => List.replicate 64 7) [] 205
      (by norm_num) (by norm_num) (by decide) (by decide)).2.1⟩

/-! ### Claim C3: encoding length -/

/-- `usize::to_le_bytes`-style little-endian encoding with a fixed byte
count. -/
def natToBytesLE : ℕ → ℕ → List ℕ
  | 0, _ => []
  | f + 1, n => n % 256 :: natToBytesLE f (n / 256)

/-- `u64::to_le_bytes` / `usize::to_le_bytes` (8 bytes). -/
def le8 (k : ℕ) : List ℕ := natToBytesLE 8 k

/-- Length of the back-substitution output: always `cols`. -/
theorem backSub_length {V : Type} (dflt : V) (vxor : V → V → V) (cols : ℕ)
    (rows : List (PRow V)) : (backSub dflt vxor cols rows).length = cols := by
  unfold backSub
  have main : ∀ (l : List (PRow V)) (x : List V), x.length = cols →
      (l.foldl (fun x r =>
        x.set r.p (vxor (innerProduct dflt vxor r.b (x.drop r.s)) r.yv)) x).length = cols := by
    intro l
    induction l with
    | nil => intro x hx; simpa using hx
    | cons r rest ih =>
      intro x hx
      exact ih _ (by simpa using hx)
  exact main rows.reverse _ (by simp)

/-- A successful `encode` returns exactly `cols` cells. -/
theorem rbEncode_length {K V : Type} (dflt : V) (vxor : V → V → V)
    (hI : K → ℕ → ℕ) (hB : K → ℕ → ℕ) (cols w : ℕ) (input : List (K × V))
    (enc : List V) (hok : rbEncode dflt vxor hI hB cols w input = .ok enc) :
    enc.length = cols := by
  unfold rbEncode at hok
  rcases hm : createSortedMatrix hI hB cols w input with e | rows
  · rw [hm] at hok
    cases hok
  · rw [hm] at hok
    unfold simpleGauss at hok
    rcases hf : forward vxor (zipRows (rows.map MRow.s) (rows.map MRow.b)
        (rows.map MRow.yv)).length 0 (zipRows (rows.map MRow.s) (rows.map MRow.b)
        (rows.map MRow.yv)) with e | prs
    · simp only [hf] at hok
      cases hok
    · simp only [hf] at hok
      cases hok
      exact backSub_length ..

/-- C3 amended.  A successful encode produces `cols` cells, and `cols` is
the *floor* `⌊(1+ε)·n⌋` of the claimed quantity, not its ceiling: the Rust
`as usize` cast truncates. -/
theorem c3_encoding_length_amended {K V : Type} (dflt : V) (vxor : V → V → V)
    (hI : K → ℕ → ℕ) (hB : K → ℕ → ℕ) (n w : ℕ) (input : List (K × V))
    (enc : List V)
    (hok : rbEncode dflt vxor hI hB (columnsRb n) w input = .ok enc) :
    enc.length = columnsRb n ∧ columnsRb n = ⌊(1 + (0.1 : ℚ)) * (n : ℚ)⌋₊ := by
  refine ⟨rbEncode_length dflt vxor hI hB (columnsRb n) w input enc hok, ?_⟩
  have hq : (1 + (0.1 : ℚ)) * (n : ℚ) = ((11 * n : ℕ) : ℚ) / ((10 : ℕ) : ℚ) := by
    push_cast
    ring
  rw [hq, Nat.floor_div_nat, Nat.floor_natCast, columnsRb]

theorem c3_encoding_length_amended_witness :
    rbEncode (K := ℕ) 0 Nat.xor (fun _ _ => 0) (fun _ _ => 1) (columnsRb 7) 5
        [(0, 3)] = .ok [3, 0, 0, 0, 0, 0, 0] ∧
    ([3, 0, 0, 0, 0, 0, 0] : List ℕ).length = columnsRb 7 ∧
    columnsRb 7 = ⌊(1 + (0.1 : ℚ)) * (7 : ℚ)⌋₊ :=
  have hok : rbEncode (K := ℕ) 0 Nat.xor (fun _ _ => 0) (fun _ _ => 1) (columnsRb 7) 5
      [(0, 3)] = .ok [3, 0, 0, 0, 0, 0, 0] := by decide
  ⟨hok,
    (c3_encoding_length_amended 0 Nat.xor (fun _ _ => 0) (fun _ _ => 1) 7 5
      [(0, 3)] [3, 0, 0, 0, 0, 0, 0] hok).1,
    (c3_encoding_length_amended 0 Nat.xor (fun _ _ => 0) (fun _ _ => 1) 7 5
      [(0, 3)] [3, 0, 0, 0, 0, 0, 0] hok).2⟩

/-- C3 instance: hash-to-index values of the 201-key instance (an adapter
behaviour allowed by the interface: a value below the range).  Keys 0–198
start at column 0, keys 199 and 200 at column 1. -/
def c3Start (k : ℕ) : ℕ := if k < 199 then 0 else 1

/-- C3 instance: band values.  Keys 0–198 carry the band `1 + 2^(k+1)`
(bit 0 forced, one higher bit), key 199 carries `1 + 2^199`, key 200
carries `1 + 2^198 + 2^199`; all fit in the 200 hash bits of a width-205
band and have bit 0 set. -/
def c3Band (k : ℕ) : ℕ :=
  if k < 199 then 1 + 2 ^ (k + 1)
  else if k = 199 then 1 + 2 ^ 199
  else 1 + 2 ^ 198 + 2 ^ 199

/-- C3 instance: a 64-byte digest whose first 25 bytes encode the band of
the hashed key (the key is recovered from its little-endian bytes). -/
def c3Blake (bytes : List ℕ) : List ℕ :=
  natToBytesLE 25 (c3Band (bytesToNatLE bytes)) ++ List.replicate 39 0

/-- C3 instance: the 8-byte index digest, read back as the start value. -/
def c3H8 (bytes : List ℕ) : ℕ := c3Start (bytesToNatLE bytes)

def c3HI (k range : ℕ) : ℕ := hashToIndex c3H8 (le8 k) range

def c3HB (k w : ℕ) : ℕ := hashToBand c3Blake (le8 k) w

/-- C3 instance input: 201 distinct keys with zero values. -/
def c3Input : List (ℕ × ℕ) := (List.range 201).map (fun k => (k, 0))

set_option maxHeartbeats 2000000 in
/-- C3 counterexample.  With 201 input pairs the constructor picks
`columns = 220 + 1 = ⌊1.1·201⌋ = 221`; this instance encodes successfully
and the encoding has length 221, but the claimed value
`⌈(1+ε)·n⌉ = ⌈221.1⌉ = 222` differs: `columns` is the floor, not the
ceiling, of `(1+ε)·n`. -/
theorem c3_encoding_length_counterexample :
    Except.map List.length
        (rbEncode 0 Nat.xor c3HI c3HB (columnsRb 201) (bandWidthRb 201) c3Input)
      = .ok (columnsRb 201) ∧
    columnsRb 201 = 221 ∧
    ⌈(1 + (0.1 : ℚ)) * (201 : ℚ)⌉₊ = 222 ∧
    (221 : ℕ) ≠ 222 ∧
    ((c3Input.map Prod.fst).Nodup ∧
      ∀ k ∈ c3Input.map Prod.fst,
        (c3HB k (bandWidthRb 201)).testBit 0 = true ∧
        c3HB k (bandWidthRb 201) < 2 ^ (8 * (bandWidthRb 201 / 8))) := by
  refine ⟨by decide, by decide, ?_, by decide, by decide⟩
  have hq : (1 + (0.1 : ℚ)) * (201 : ℚ) = (2211 : ℚ) / 10 := by norm_num
  rw [hq, Nat.ceil_eq_iff (by norm_num)]
  norm_num

/-! ### Claim C1: the OKVS round trip -/

/-- C1 instance: start positions.  Keys 0–57 start at column 0, key 58 (the
victim) at column 57, keys 59–256 at column 58; all inside the valid range
`[0, cols − w) = [0, 77)`. -/
def c1Start (k : ℕ) : ℕ := if k < 58 then 0 else if k = 58 then 57 else 58

/-- C1 instance: bands.  Keys 0–57 carry `1 + 2^(k+1)`, the victim carries
`1 + 2^199` (bit 0 and bit 199, i.e. columns 57 and 256), keys 59–256 carry
`1 + 2^(k−58)`.  All bands have bit 0 set and fit in the 200 hash bits of a
width-205 band. -/
def c1Band (k : ℕ) : ℕ :=
  if k < 58 then 1 + 2 ^ (k + 1)
  else if k = 58 then 1 + 2 ^ 199
  else 1 + 2 ^ (k - 58)

/-- C1 instance: a 64-byte digest encoding the band of the hashed key. -/
def c1Blake (bytes : List ℕ) : List ℕ :=
  natToBytesLE 25 (c1Band (bytesToNatLE bytes)) ++ List.replicate 39 0

/-- C1 instance: the 8-byte index digest, read back as the start value. -/
def c1H8 (bytes : List ℕ) : ℕ := c1Start (bytesToNatLE bytes)

def c1HI (k range : ℕ) : ℕ := hashToIndex c1H8 (le8 k) range

def c1HB (k w : ℕ) : ℕ := hashToBand c1Blake (le8 k) w

/-- C1 instance input: 257 distinct keys; key 58 stores value 1, the rest
store 0. -/
def c1Input : List (ℕ × ℕ) := (List.range 257).map (fun k => (k, if k = 58 then 1 else 0))

set_option maxHeartbeats 4000000 in
/-- C1 evaluated at the failing input.  The 257-pair instance satisfies the
adapter interface (distinct keys, every band has bit 0 set and fits in the
hash bits, every start is in range), `encode` succeeds — yet decoding key
58 returns 0 while the stored value was 1.

What happens: rows 0–57 cascade the pivots up to column 57; eliminating
row 57 into the victim row (start 57) calls
`xor(a, b, 57, 0) = (((b << 57) & mask) ^ a) >> 57`, and the victim's band
bit 199 (column 256) is shifted to bit position 256 and silently dropped by
the `U256` left shift.  Rows 59–256 then pivot columns 59–256, so the
dropped column 256 carries a non-zero solution cell, and the decode of the
victim key (which re-reads columns 57 and 256) no longer matches its
equation.  The solver's own success check cannot see the lost bits, so the
defining OKVS property P1 is violated by the code. -/
theorem c1_round_trip_code_bug :
    ((rbEncode 0 Nat.xor c1HI c1HB (columnsRb 257) (bandWidthRb 257) c1Input).map
      (fun e => rbDecode 0 Nat.xor c1HI c1HB (columnsRb 257) (bandWidthRb 257) e 58))
      = .ok 0 ∧
    (58, 1) ∈ c1Input ∧
    (c1Input.map Prod.fst).Nodup ∧
    (∀ k ∈ c1Input.map Prod.fst,
      (c1HB k (bandWidthRb 257)).testBit 0 = true ∧
      c1HB k (bandWidthRb 257) < 2 ^ (8 * (bandWidthRb 257 / 8))) ∧
    (0 : ℕ) ≠ 1 := by
  refine ⟨by decide, by decide, by decide, by decide, by decide⟩

/-! ### Claim C7 (amended): pivots are distinct and in range -/

/-- Specification of the fuel-based trailing-zero count: the bit found is
set and all lower bits are clear. -/
theorem tzAux_spec : ∀ (fuel u : ℕ), u ≠ 0 → u < 2 ^ fuel →
    u.testBit (tzAux fuel u) = true ∧ ∀ j < tzAux fuel u, u.testBit j = false := by
  intro fuel
  induction fuel with
  | zero => intro u hu hlt; omega
  | succ n ih =>
    intro u hu hlt
    by_cases hpar : u % 2 = 1
    · rw [tzAux, if_pos hpar]
      refine ⟨by rw [Nat.testBit_zero]; simp [hpar], by omega⟩
    · have hne : u / 2 ≠ 0 := by omega
      have hlt2 : u / 2 < 2 ^ n := by
        rw [Nat.pow_succ] at hlt
        omega
      obtain ⟨h1, h2⟩ := ih (u / 2) hne hlt2
      rw [tzAux, if_neg hpar]
      constructor
      · rw [Nat.testBit_add_one]
        exact h1
      · intro j hj
        cases j with
        | zero => rw [Nat.testBit_zero]; simp [hpar]
        | succ m =>
          rw [Nat.testBit_add_one]
          exact h2 m (by omega)

theorem tz256_spec (u : ℕ) (hu : u ≠ 0) (hlt : u < 2 ^ 256) :
    u.testBit (tz256 u) = true ∧ ∀ j < tz256 u, u.testBit j = false := by
  rw [tz256, if_neg hu]
  exact tzAux_spec 256 u hu hlt

/-- A nonzero band below `2^w` has its first one below `w`. -/
theorem tz256_lt (u w : ℕ) (hu : u ≠ 0) (hw : w ≤ 256) (hlt : u < 2 ^ w) : tz256 u < w := by
  have hlt256 : u < 2 ^ 256 := lt_of_lt_of_le hlt (Nat.pow_le_pow_right (by norm_num) hw)
  by_contra hge
  have h1 := (tz256_spec u hu hlt256).1
  have h2 : u.testBit (tz256 u) = false :=
    Nat.testBit_lt_two_pow
      (lt_of_lt_of_le hlt (Nat.pow_le_pow_right (by norm_num) (by omega)))
  rw [h1] at h2
  cases h2

/-- Row `r` has (absolute) column `c` clear. -/
def ColClear {V : Type} (c : ℕ) (r : GRow V) : Prop :=
  r.s ≤ c → r.b.testBit (c - r.s) = false

/-- Row `r`'s band fits the band window: at most `w'` bits, and the window
`[s, s + w')` lies inside `[0, cols)`. -/
def RowFit {V : Type} (w' cols : ℕ) (r : GRow V) : Prop :=
  r.b < 2 ^ w' ∧ r.s + w' ≤ cols

theorem innerLoop_map_s {V : Type} (vxor : V → V → V) (a f p : ℕ) (yi : V) :
    ∀ l : List (GRow V), (innerLoop vxor a f p yi l).map GRow.s = l.map GRow.s := by
  intro l
  induction l with
  | nil => rfl
  | cons r rest ih =>
    by_cases hbr : p < r.s
    · simp [innerLoop, hbr]
    · by_cases hbit : bitU r.b (p - r.s)
      · simp [innerLoop, hbr, hbit, ih]
      · simp [innerLoop, hbr, hbit, ih]

theorem innerLoop_length {V : Type} (vxor : V → V → V) (a f p : ℕ) (yi : V)
    (l : List (GRow V)) : (innerLoop vxor a f p yi l).length = l.length := by
  have := congrArg List.length (innerLoop_map_s vxor a f p yi l)
  simpa using this

/-- Forward elimination keeps every band inside its window: the eliminating
row starts at `p - f ≤ s`, so the XOR only touches positions below `w'`. -/
theorem innerLoop_fit {V : Type} (vxor : V → V → V) (a f p : ℕ) (yi : V)
    (w' cols : ℕ) (hw : w' ≤ 256) (haf : a < 2 ^ w') (hfp : f ≤ p) :
    ∀ l : List (GRow V), (∀ r ∈ l, p - f ≤ r.s) → (∀ r ∈ l, RowFit w' cols r) →
      ∀ r ∈ innerLoop vxor a f p yi l, RowFit w' cols r := by
  intro l
  induction l with
  | nil => simp [innerLoop]
  | cons r rest ih =>
    intro hs hfit x hx
    have hrfit := hfit r (by simp)
    have ha256 : a < 2 ^ 256 := lt_of_lt_of_le haf (Nat.pow_le_pow_right (by norm_num) hw)
    have hb256 : r.b < 2 ^ 256 :=
      lt_of_lt_of_le hrfit.1 (Nat.pow_le_pow_right (by norm_num) hw)
    by_cases hbr : p < r.s
    · rw [innerLoop, if_pos hbr] at hx
      exact hfit x hx
    · rw [innerLoop, if_neg hbr] at hx
      by_cases hbit : bitU r.b (p - r.s)
      · rw [if_pos hbit] at hx
        rcases List.mem_cons.mp hx with hhd | htl
        · rw [hhd]
          refine ⟨?_, hrfit.2⟩
          have hhigh : ∀ i, w' ≤ i → (xorU a r.b f (p - r.s)).testBit i = false := by
            intro i hi
            rw [xorU_testBit a r.b f (p - r.s) i ha256 hb256]
            by_cases hcond : i < 256 ∧ p - r.s ≤ i + f ∧ i + f - (p - r.s) < 256
            · rw [if_pos hcond]
              have hbf : r.b.testBit i = false :=
                Nat.testBit_lt_two_pow
                  (lt_of_lt_of_le hrfit.1 (Nat.pow_le_pow_right (by norm_num) hi))
              have hs0 : p - f ≤ r.s := hs r (by simp)
              have haf2 : a.testBit (i + f - (p - r.s)) = false := by
                refine Nat.testBit_lt_two_pow
                  (lt_of_lt_of_le haf (Nat.pow_le_pow_right (by norm_num) ?_))
                omega
              rw [hbf, haf2]
              rfl
            · rw [if_neg hcond]
          exact Nat.lt_pow_two_of_testBit _ hhigh
        · exact ih (fun q hq => hs q (by simp [hq]))
            (fun q hq => hfit q (by simp [hq])) x htl
      · rw [if_neg hbit] at hx
        rcases List.mem_cons.mp hx with hhd | htl
        · rw [hhd]; exact hrfit
        · exact ih (fun q hq => hs q (by simp [hq]))
            (fun q hq => hfit q (by simp [hq])) x htl

/-- After the inner loop for pivot column `p`, every remaining row has
column `p` clear (the visited rows were eliminated there, and the rows
behind the early break start beyond `p`). -/
theorem innerLoop_clears_pivot {V : Type} (vxor : V → V → V) (a f p : ℕ) (yi : V)
    (ha256 : a < 2 ^ 256) (haf : a.testBit f = true) (hf256 : f < 256) (hfp : f ≤ p) :
    ∀ l : List (GRow V),
      (∀ r ∈ l, r.b < 2 ^ 256) →
      l.Pairwise (fun r q => r.s ≤ q.s) →
      (∀ r ∈ l, p - f ≤ r.s) →
      ∀ r ∈ innerLoop vxor a f p yi l, ColClear p r := by
  intro l
  induction l with
  | nil => simp [innerLoop]
  | cons r rest ih =>
    intro h256 hpair hs x hx
    by_cases hbr : p < r.s
    · rw [innerLoop, if_pos hbr] at hx
      rcases List.mem_cons.mp hx with hhd | htl
      · rw [hhd]
        intro hle
        omega
      · intro hle
        have : r.s ≤ x.s := (List.pairwise_cons.mp hpair).1 x htl
        omega
    · rw [innerLoop, if_neg hbr] at hx
      by_cases hbit : bitU r.b (p - r.s)
      · rw [if_pos hbit] at hx
        rcases List.mem_cons.mp hx with hhd | htl
        · rw [hhd]
          intro hle
          dsimp only at hle ⊢
          rw [xorU_testBit a r.b f (p - r.s) (p - r.s) ha256 (h256 r (by simp))]
          have hs0 : p - f ≤ r.s := hs r (by simp)
          rw [if_pos ⟨by omega, by omega, by omega⟩]
          have hidx : p - r.s + f - (p - r.s) = f := by omega
          have hbb : r.b.testBit (p - r.s) = true := hbit
          rw [hidx, haf, hbb]
          rfl
        · exact ih (fun q hq => h256 q (by simp [hq]))
            (List.pairwise_cons.mp hpair).2
            (fun q hq => hs q (by simp [hq])) x htl
      · rw [if_neg hbit] at hx
        rcases List.mem_cons.mp hx with hhd | htl
        · rw [hhd]
          intro hle
          have : ¬ r.b.testBit (p - r.s) = true := hbit
          simpa using this
        · exact ih (fun q hq => h256 q (by simp [hq]))
            (List.pairwise_cons.mp hpair).2
            (fun q hq => hs q (by simp [hq])) x htl

/-- The inner loop preserves a clear column `c` of all rows, provided the
eliminating row (which starts at `p - f`) also has column `c` clear. -/
theorem innerLoop_keeps_clear {V : Type} (vxor : V → V → V) (a f p c : ℕ) (yi : V)
    (ha256 : a < 2 ^ 256) (hfp : f ≤ p)
    (hac : p - f ≤ c → a.testBit (c - (p - f)) = false) :
    ∀ l : List (GRow V),
      (∀ r ∈ l, r.b < 2 ^ 256) →
      (∀ r ∈ l, p - f ≤ r.s) →
      (∀ r ∈ l, ColClear c r) →
      ∀ r ∈ innerLoop vxor a f p yi l, ColClear c r := by
  intro l
  induction l with
  | nil => simp [innerLoop]
  | cons r rest ih =>
    intro h256 hs hclear x hx
    by_cases hbr : p < r.s
    · rw [innerLoop, if_pos hbr] at hx
      exact hclear x hx
    · rw [innerLoop, if_neg hbr] at hx
      by_cases hbit : bitU r.b (p - r.s)
      · rw [if_pos hbit] at hx
        rcases List.mem_cons.mp hx with hhd | htl
        · rw [hhd]
          intro hle
          dsimp only at hle ⊢
          rw [xorU_testBit a r.b f (p - r.s) (c - r.s) ha256 (h256 r (by simp))]
          have hs0 : p - f ≤ r.s := hs r (by simp)
          by_cases hcond : c - r.s < 256 ∧ p - r.s ≤ c - r.s + f ∧ c - r.s + f - (p - r.s) < 256
          · rw [if_pos hcond]
            have hbf : r.b.testBit (c - r.s) = false := hclear r (by simp) hle
            have hidx : c - r.s + f - (p - r.s) = c - (p - f) := by omega
            have haf2 : a.testBit (c - (p - f)) = false := hac (by omega)
            rw [hbf, hidx, haf2]
            rfl
          · rw [if_neg hcond]
        · exact ih (fun q hq => h256 q (by simp [hq]))
            (fun q hq => hs q (by simp [hq]))
            (fun q hq => hclear q (by simp [hq])) x htl
      · rw [if_neg hbit] at hx
        rcases List.mem_cons.mp hx with hhd | htl
        · rw [hhd]
          exact hclear r (by simp)
        · exact ih (fun q hq => h256 q (by simp [hq]))
            (fun q hq => hs q (by simp [hq]))
            (fun q hq => hclear q (by simp [hq])) x htl

/-- Main invariant of forward elimination: on rows sorted by ascending
start whose bands fit their windows, a successful forward phase yields
pivots that are in `[0, cols)` and pairwise distinct; moreover no pivot
lands on a column that every input row has clear. -/
theorem forward_aux {V : Type} (vxor : V → V → V) (w' cols : ℕ) (hw : w' ≤ 256) :
    ∀ (fuel idx : ℕ) (l : List (GRow V)) (out : List (PRow V)),
      fuel = l.length →
      l.Pairwise (fun r q => r.s ≤ q.s) →
      (∀ r ∈ l, RowFit w' cols r) →
      forward vxor fuel idx l = .ok out →
      (∀ pr ∈ out, pr.p < cols) ∧
      (out.map PRow.p).Pairwise (· ≠ ·) ∧
      (∀ c, (∀ r ∈ l, ColClear c r) → ∀ pr ∈ out, pr.p ≠ c) := by
  intro fuel
  induction fuel with
  | zero =>
    intro idx l out hlen hpair hfit hok
    have : l = [] := List.eq_nil_of_length_eq_zero hlen.symm
    subst this
    cases hok
    simp
  | succ n ih =>
    intro idx l out hlen hpair hfit hok
    rcases l with _ | ⟨r, rest⟩
    · simp at hlen
    · have hb2 : r.b < 2 ^ w' := (hfit r (by simp)).1
      have hb256 : r.b < 2 ^ 256 :=
        lt_of_lt_of_le hb2 (Nat.pow_le_pow_right (by norm_num) hw)
      rw [forward] at hok
      by_cases hz : tz256 r.b = 256
      · rw [if_pos hz] at hok
        cases hok
      · rw [if_neg hz] at hok
        have hbne : r.b ≠ 0 := by
          intro h0
          rw [h0] at hz
          exact hz rfl
        have hf : tz256 r.b < w' := tz256_lt r.b w' hbne hw hb2
        have htzspec := tz256_spec r.b hbne hb256
        set f := tz256 r.b with hfdef
        set p := f + r.s with hpdef
        set rest' := innerLoop vxor r.b f p r.yv rest with hrdef
        have hsub : p - f = r.s := by omega
        have hsrest : ∀ q ∈ rest, p - f ≤ q.s := by
          intro q hq
          rw [hsub]
          exact (List.pairwise_cons.mp hpair).1 q hq
        have hlen' : n = rest'.length := by
          rw [hrdef, innerLoop_length]
          simpa using hlen
        have hpair' : rest'.Pairwise (fun r q => r.s ≤ q.s) := by
          have hmap : (rest'.map GRow.s).Pairwise (· ≤ ·) := by
            rw [hrdef, innerLoop_map_s]
            rw [List.pairwise_map]
            exact (List.pairwise_cons.mp hpair).2.imp (fun h => h)
          rw [List.pairwise_map] at hmap
          exact hmap.imp (fun h => h)
        have hfit' : ∀ q ∈ rest', RowFit w' cols q := by
          intro q hq
          exact innerLoop_fit vxor r.b f p r.yv w' cols hw hb2 (by omega) rest
            hsrest (fun x hx => hfit x (by simp [hx])) q hq
        rcases hfw : forward vxor n (idx + 1) rest' with e | out'
        · rw [hfw] at hok
          cases hok
        · rw [hfw] at hok
          cases hok
          obtain ⟨hrange', hpw', hclr'⟩ := ih (idx + 1) rest' out' hlen' hpair' hfit' hfw
          have h256rest : ∀ q ∈ rest, q.b < 2 ^ 256 := by
            intro q hq
            exact lt_of_lt_of_le (hfit q (by simp [hq])).1
              (Nat.pow_le_pow_right (by norm_num) hw)
          have hclear_p : ∀ q ∈ rest', ColClear p q := by
            apply innerLoop_clears_pivot vxor r.b f p r.yv hb256 htzspec.1
              (by omega) (by omega) rest h256rest
              (List.pairwise_cons.mp hpair).2 hsrest
          refine ⟨?_, ?_, ?_⟩
          · intro pr hpr
            rcases List.mem_cons.mp hpr with hhd | htl
            · rw [hhd]
              have := (hfit r (by simp)).2
              show p < cols
              omega
            · exact hrange' pr htl
          · rw [List.map_cons, List.pairwise_cons]
            refine ⟨?_, hpw'⟩
            intro q hq
            rcases List.mem_map.mp hq with ⟨pr, hpr, hpq⟩
            have := hclr' p hclear_p pr hpr
            show p ≠ q
            omega
          · intro c hclear pr hpr
            rcases List.mem_cons.mp hpr with hhd | htl
            · rw [hhd]
              show p ≠ c
              intro hpc
              have hrc := hclear r (by simp)
              have hle : r.s ≤ c := by omega
              have hcr : c - r.s = f := by omega
              have := hrc hle
              rw [hcr, htzspec.1] at this
              cases this
            · have hkeep : ∀ q ∈ rest', ColClear c q := by
                apply innerLoop_keeps_clear vxor r.b f p c r.yv hb256 (by omega)
                  (by rw [hsub]; exact fun hle => hclear r (by simp) hle) rest
                  h256rest hsrest
                  (fun q hq => hclear q (by simp [hq]))
              exact hclr' c hkeep pr htl

/-- C7 amended.  On rows sorted by ascending start position whose bands fit
the band window (`band < 2^w`, `start + w ≤ cols`, `w ≤ 256`), a forward
elimination that completes without `ZeroRow` records pivots that are
pairwise distinct and all inside `[0, cols)`.  (They need not be strictly
increasing, as the counterexample shows.) -/
theorem c7_pivot_distinct_amended {V : Type} (vxor : V → V → V) (w' cols idx : ℕ)
    (rows : List (GRow V)) (out : List (PRow V))
    (hw : w' ≤ 256)
    (hsorted : (rows.map GRow.s).Pairwise (· ≤ ·))
    (hfit : ∀ r ∈ rows, r.b < 2 ^ w' ∧ r.s + w' ≤ cols)
    (hok : forward vxor rows.length idx rows = .ok out) :
    (out.map PRow.p).Pairwise (· ≠ ·) ∧ ∀ pr ∈ out, pr.p < cols := by
  have hpair : rows.Pairwise (fun r q => r.s ≤ q.s) := by
    rw [List.pairwise_map] at hsorted
    exact hsorted
  obtain ⟨h1, h2, _⟩ := forward_aux vxor w' cols hw rows.length idx rows out rfl
    hpair (fun r hr => hfit r hr) hok
  exact ⟨h2, h1⟩

theorem c7_pivot_distinct_amended_witness :
    (2 : ℕ) ≤ 256 ∧
    ((([⟨0, 1, 0⟩, ⟨2, 3, 0⟩] : List (GRow ℕ)).map GRow.s).Pairwise (· ≤ ·)) ∧
    (∀ r ∈ ([⟨0, 1, 0⟩, ⟨2, 3, 0⟩] : List (GRow ℕ)), r.b < 2 ^ 2 ∧ r.s + 2 ≤ 4) ∧
    forward (V := ℕ) Nat.xor ([⟨0, 1, 0⟩, ⟨2, 3, 0⟩] : List (GRow ℕ)).length 0
        [⟨0, 1, 0⟩, ⟨2, 3, 0⟩] = .ok [⟨0, 1, 0, 0⟩, ⟨2, 3, 2, 0⟩] ∧
    ((([⟨0, 1, 0, 0⟩, ⟨2, 3, 2, 0⟩] : List (PRow ℕ)).map PRow.p).Pairwise (· ≠ ·) ∧
      ∀ pr ∈ ([⟨0, 1, 0, 0⟩, ⟨2, 3, 2, 0⟩] : List (PRow ℕ)), pr.p < 4) :=
  have hok : forward (V := ℕ) Nat.xor ([⟨0, 1, 0⟩, ⟨2, 3, 0⟩] : List (GRow ℕ)).length 0
      [⟨0, 1, 0⟩, ⟨2, 3, 0⟩] = .ok [⟨0, 1, 0, 0⟩, ⟨2, 3, 2, 0⟩] := by decide
  ⟨by norm_num,
    by simp,
    by decide,
    hok,
    c7_pivot_distinct_amended Nat.xor 2 4 0 [⟨0, 1, 0⟩, ⟨2, 3, 0⟩]
      [⟨0, 1, 0, 0⟩, ⟨2, 3, 2, 0⟩] (by norm_num) (by simp) (by decide) hok⟩

/-! ### The VH-EMM layer (src/emm.rs)

The external collaborators — SHA-256 (`sha256::digest`, producing a
64-character hex string whose bytes form the label), Blake2b (inside
`utils::hash`) and AES-256-GCM — enter as function parameters.  Both
`encode_value` and `decode_value` call `cipher.encrypt` with the constant
`Default::default()` nonce; AES-GCM is CTR-mode masking plus a 16-byte tag,
so encrypting twice with the same key and nonce restores the masked bytes.
The keystream (a function of the fixed key `k_E` and the fixed nonce) and
the tag function are therefore the faithful abstraction boundary. -/

/-- `ClientState` of src/emm.rs: two 32-byte keys. -/
structure ClientState where
  kf : List ℕ
  ke : List ℕ
deriving DecidableEq, Repr

/-- `ClientState::default()` — the derived `Default` zero-fills both
32-byte keys.  This (not `new_random`) is what `setup` constructs. -/
def clientStateDefault : ClientState :=
  ⟨List.replicate 32 0, List.replicate 32 0⟩

/-- CTR keystream masking from stream position `i`. -/
def ctrMask (ks : ℕ → ℕ) : ℕ → List ℕ → List ℕ
  | _, [] => []
  | i, p :: rest => (p ^^^ ks i) :: ctrMask ks (i + 1) rest

/-- AES-256-GCM `encrypt` under the constant zero nonce: CTR-mask the
plaintext with the keystream `ks` and append the 16-byte tag `tag pt`. -/
def aesEnc (ks : ℕ → ℕ) (tag : List ℕ → List ℕ) (pt : List ℕ) : List ℕ :=
  ctrMask ks 0 pt ++ tag pt

/-- `sha256(kf, key)` of src/emm.rs: digest of `kf ‖ key.to_le_bytes()`;
the hex-string bytes (64 of them) are the abstract `shaHex`. -/
def labelOf (shaHex : List ℕ → List ℕ) (kf : List ℕ) (key : ℕ) : List ℕ :=
  shaHex (kf ++ le8 key)

/-- `create_key(h, i)` of src/emm.rs: hash `h ‖ i.to_le_bytes()` down to
`OKVS_K_SIZE` bytes (the `copy_from_slice` into the key buffer is exact
because `hash` returns the requested size). -/
def createKey (blake64 : List ℕ → List ℕ) (kSize : ℕ) (h : List ℕ) (i : ℕ) : List ℕ :=
  hashBytes blake64 (h ++ le8 i) kSize

/-- `encode_value` of src/emm.rs: seal `h ‖ v.encode()`; the
`copy_from_slice` of the ciphertext into the `OKVS_V_SIZE`-byte cell
panics — modelled as `none` — unless the lengths agree exactly. -/
def encodeValue (ks : ℕ → ℕ) (tag : List ℕ → List ℕ) (vSize : ℕ)
    (h venc : List ℕ) : Option (List ℕ) :=
  let ct := aesEnc ks tag (h ++ venc)
  if ct.length = vSize then some ct else none

/-- `decode_value` of src/emm.rs: "decrypt" by encrypting the cell again
under the same key and constant nonce, then split off the 64-byte label
and decode the `V::len()` value bytes. -/
def decodeValue {A : Type} (ks : ℕ → ℕ) (tag : List ℕ → List ℕ)
    (vdec : List ℕ → A) (vlenB : ℕ) (cell : List ℕ) : List ℕ × A :=
  let d := aesEnc ks tag cell
  (d.take 64, vdec ((d.drop 64).take vlenB))

/-- The inner loop of `setup` for one user pair: seal each indexed value
and attach its OKVS sub-key; `none` as soon as a cell copy would panic. -/
def buildCellList {A : Type} (blake64 : List ℕ → List ℕ) (ks : ℕ → ℕ)
    (tag : List ℕ → List ℕ) (kSize vSize : ℕ) (venc : A → List ℕ)
    (h : List ℕ) : List (ℕ × A) → Option (List (List ℕ × List ℕ))
  | [] => some []
  | (j, v) :: rest =>
    match encodeValue ks tag vSize h (venc v),
        buildCellList blake64 ks tag kSize vSize venc h rest with
    | some c, some cs => some ((createKey blake64 kSize h j, c) :: cs)
    | _, _ => none

/-- The outer loop of `setup`: label each user key under `k_F` and expand
its values into OKVS pairs, in input order. -/
def buildPairList {A : Type} (shaHex blake64 : List ℕ → List ℕ) (ks : ℕ → ℕ)
    (tag : List ℕ → List ℕ) (kSize vSize : ℕ) (venc : A → List ℕ)
    (kf : List ℕ) : List (ℕ × List A) → Option (List (List ℕ × List ℕ))
  | [] => some []
  | (key, vs) :: rest =>
    match buildCellList blake64 ks tag kSize vSize venc
        (labelOf shaHex kf key) vs.enum,
        buildPairList shaHex blake64 ks tag kSize vSize venc kf rest with
    | some cs, some more => some (cs ++ more)
    | _, _ => none

/-- `VhEmm::setup` (src/emm.rs): create the client state with
`ClientState::default()`, expand the input into OKVS pairs, and encode
them with the underlying OKVS (`okvsEnc` is the `T: Okvs` parameter of
`VhEmm`).  `none` models a panic in a cell copy. -/
def vhSetup {A : Type}
    (okvsEnc : List (List ℕ × List ℕ) → Except RbError (List (List ℕ)))
    (shaHex blake64 : List ℕ → List ℕ) (ks : ℕ → ℕ) (tag : List ℕ → List ℕ)
    (kSize vSize : ℕ) (venc : A → List ℕ) (input : List (ℕ × List A)) :
    Option (Except RbError (List (List ℕ) × ClientState)) :=
  match buildPairList shaHex blake64 ks tag kSize vSize venc
      clientStateDefault.kf input with
  | none => none
  | some pairs =>
    match okvsEnc pairs with
    | .error e => some (.error e)
    | .ok enc => some (.ok (enc, clientStateDefault))

/-- The client-side loop of `query`: decode each returned cell, failing
with `Decode i` at the first slot whose label prefix is not `h`. -/
def checkCells {A : Type} (ks : ℕ → ℕ) (tag : List ℕ → List ℕ)
    (vdec : List ℕ → A) (vlenB : ℕ) (h : List ℕ) :
    ℕ → List (List ℕ) → Except RbError (List A)
  | _, [] => .ok []
  | i, c :: rest =>
    let dv := decodeValue ks tag vdec vlenB c
    if dv.1 ≠ h then .error (.decode i)
    else
      match checkCells ks tag vdec vlenB h (i + 1) rest with
      | .error e => .error e
      | .ok vs => .ok (dv.2 :: vs)

/-- `VhEmm::query` (src/emm.rs): recompute the label `h` under the client
state's `k_F`, decode the OKVS at the derived sub-keys for each of the
`v_len` expected slots, then decrypt and label-check each cell in order. -/
def vhQuery {A : Type}
    (okvsDec : List (List ℕ) → List ℕ → List ℕ)
    (shaHex blake64 : List ℕ → List ℕ) (ks : ℕ → ℕ) (tag : List ℕ → List ℕ)
    (vdec : List ℕ → A) (kSize vlenB : ℕ) (key vLen : ℕ) (cs : ClientState)
    (enc : List (List ℕ)) : Except RbError (List A) :=
  let h := labelOf shaHex cs.kf key
  checkCells ks tag vdec vlenB h 0
    ((List.range vLen).map (fun i => okvsDec enc (createKey blake64 kSize h i)))

/-! ### Claim C4: the client keys `setup` actually produces -/

/-- C4 evaluated against the code.  Every successful `setup` returns the
`ClientState` built by `ClientState::default()`: both `k_F` and `k_E` are
the all-zero 32-byte constant.  `ClientState::new_random` (the CSPRNG
path) exists in the source but `setup` never calls it, so the keys are a
fixed constant and any two setups share them, contradicting the claim. -/
theorem c4_client_keys_code_bug {A : Type}
    (okvsEnc : List (List ℕ × List ℕ) → Except RbError (List (List ℕ)))
    (shaHex blake64 : List ℕ → List ℕ) (ks : ℕ → ℕ) (tag : List ℕ → List ℕ)
    (kSize vSize : ℕ) (venc : A → List ℕ) (input : List (ℕ × List A))
    (enc : List (List ℕ)) (cs : ClientState)
    (hset : vhSetup okvsEnc shaHex blake64 ks tag kSize vSize venc input
      = some (.ok (enc, cs))) :
    cs.kf = List.replicate 32 0 ∧ cs.ke = List.replicate 32 0 := by
  unfold vhSetup at hset
  split at hset
  · cases hset
  · split at hset
    · simp at hset
    · have h1 := Option.some.inj hset
      have h2 := Except.ok.inj h1
      have hcs : cs = clientStateDefault := by
        have h3 := congrArg Prod.snd h2
        simp at h3
        exact h3.symm
      rw [hcs]
      exact ⟨rfl, rfl⟩

theorem c4_client_keys_code_bug_witness :
    vhSetup (A := ℕ) (fun _ => .ok []) (fun _ => List.replicate 64 0) (fun _ => [])
        (fun _ => 0) (fun _ => List.replicate 16 0) 8 80 (fun _ => []) [(5, [7])]
      = some (.ok ([], clientStateDefault)) ∧
    clientStateDefault.kf = List.replicate 32 0 ∧
    clientStateDefault.ke = List.replicate 32 0 :=
  have hset : vhSetup (A := ℕ) (fun _ => .ok []) (fun _ => List.replicate 64 0) (fun _ => [])
      (fun _ => 0) (fun _ => List.replicate 16 0) 8 80 (fun _ => []) [(5, [7])]
      = some (.ok ([], clientStateDefault)) := by decide
  ⟨hset,
    c4_client_keys_code_bug (fun _ => .ok []) (fun _ => List.replicate 64 0) (fun _ => [])
      (fun _ => 0) (fun _ => List.replicate 16 0) 8 80 (fun _ => []) [(5, [7])]
      [] clientStateDefault hset⟩

/-! ### Claim C10: the implicit cell-size precondition of `setup` -/

theorem ctrMask_length (ks : ℕ → ℕ) : ∀ (i : ℕ) (l : List ℕ),
    (ctrMask ks i l).length = l.length := by
  intro i l
  induction l generalizing i with
  | nil => rfl
  | cons p rest ih => simp [ctrMask, ih]

theorem aesEnc_length (ks : ℕ → ℕ) (tag : List ℕ → List ℕ) (pt : List ℕ)
    (htag : (tag pt).length = 16) : (aesEnc ks tag pt).length = pt.length + 16 := by
  simp [aesEnc, ctrMask_length, htag]

/-- A cell seals exactly when the fixed cell size matches the ciphertext
size `|h| + |v.encode()| + 16`. -/
theorem encodeValue_isSome (ks : ℕ → ℕ) (tag : List ℕ → List ℕ)
    (vSize : ℕ) (h venc : List ℕ) (htag : ∀ pt, (tag pt).length = 16) :
    (encodeValue ks tag vSize h venc).isSome = true ↔
      h.length + venc.length + 16 = vSize := by
  unfold encodeValue
  have hlen : (aesEnc ks tag (h ++ venc)).length = h.length + venc.length + 16 := by
    rw [aesEnc_length ks tag (h ++ venc) (htag (h ++ venc))]
    simp
  by_cases hc : (aesEnc ks tag (h ++ venc)).length = vSize
  · simp only [hc, if_pos rfl]
    simp [← hc, hlen]
  · rw [if_neg hc]
    simp only [Option.isSome_none]
    constructor
    · intro hfalse
      cases hfalse
    · intro heq
      exact absurd (hlen.trans heq) hc

theorem buildCellList_isSome {A : Type} (blake64 : List ℕ → List ℕ) (ks : ℕ → ℕ)
    (tag : List ℕ → List ℕ) (kSize vSize : ℕ) (venc : A → List ℕ) (h : List ℕ) :
    ∀ l : List (ℕ × A),
      (buildCellList blake64 ks tag kSize vSize venc h l).isSome = true ↔
        ∀ jv ∈ l, (encodeValue ks tag vSize h (venc jv.2)).isSome = true := by
  intro l
  induction l with
  | nil => simp [buildCellList]
  | cons jv rest ih =>
    rcases jv with ⟨j, v⟩
    rcases hev : encodeValue ks tag vSize h (venc v) with _ | c
    · constructor
      · intro hsome
        exfalso
        rw [buildCellList, hev] at hsome
        cases hsome
      · intro hall
        exfalso
        have := hall ⟨j, v⟩ (by simp)
        rw [hev] at this
        cases this
    · rcases hrest : buildCellList blake64 ks tag kSize vSize venc h rest with _ | cs
      · constructor
        · intro hsome
          exfalso
          rw [buildCellList, hev, hrest] at hsome
          cases hsome
        · intro hall
          exfalso
          have : ∀ jv ∈ rest, (encodeValue ks tag vSize h (venc jv.2)).isSome = true :=
            fun q hq => hall q (by simp [hq])
          have hsome := (ih.mpr this)
          rw [hrest] at hsome
          cases hsome
      · constructor
        · intro _ jv2 hmem
          rcases List.mem_cons.mp hmem with hhd | htl
          · rw [hhd, hev]
            rfl
          · have hsome : (buildCellList blake64 ks tag kSize vSize venc h rest).isSome = true := by
              rw [hrest]
              rfl
            exact ih.mp hsome jv2 htl
        · intro _
          rw [buildCellList, hev, hrest]
          rfl

theorem buildPairList_isSome {A : Type} (shaHex blake64 : List ℕ → List ℕ)
    (ks : ℕ → ℕ) (tag : List ℕ → List ℕ) (kSize vSize : ℕ) (venc : A → List ℕ)
    (kf : List ℕ) :
    ∀ input : List (ℕ × List A),
      (buildPairList shaHex blake64 ks tag kSize vSize venc kf input).isSome = true ↔
        ∀ kv ∈ input, (buildCellList blake64 ks tag kSize vSize venc
          (labelOf shaHex kf kv.1) kv.2.enum).isSome = true := by
  intro input
  induction input with
  | nil => simp [buildPairList]
  | cons kv rest ih =>
    rcases kv with ⟨key, vs⟩
    rcases hcl : buildCellList blake64 ks tag kSize vSize venc
        (labelOf shaHex kf key) vs.enum with _ | cs
    · constructor
      · intro hsome
        exfalso
        rw [buildPairList, hcl] at hsome
        cases hsome
      · intro hall
        exfalso
        have := hall ⟨key, vs⟩ (by simp)
        rw [hcl] at this
        cases this
    · rcases hrest : buildPairList shaHex blake64 ks tag kSize vSize venc kf rest with _ | more
      · constructor
        · intro hsome
          exfalso
          rw [buildPairList, hcl, hrest] at hsome
          cases hsome
        · intro hall
          exfalso
          have : ∀ kv ∈ rest, (buildCellList blake64 ks tag kSize vSize venc
              (labelOf shaHex kf kv.1) kv.2.enum).isSome = true :=
            fun q hq => hall q (by simp [hq])
          have hsome := ih.mpr this
          rw [hrest] at hsome
          cases hsome
      · constructor
        · intro _ kv2 hmem
          rcases List.mem_cons.mp hmem with hhd | htl
          · rw [hhd, hcl]
            rfl
          · have hsome : (buildPairList shaHex blake64 ks tag kSize vSize venc
                kf rest).isSome = true := by
              rw [hrest]
              rfl
            exact ih.mp hsome kv2 htl
        · intro _
          rw [buildPairList, hcl, hrest]
          rfl

/-- `setup` returns (does not panic) exactly when the pair expansion
does. -/
theorem vhSetup_isSome {A : Type}
    (okvsEnc : List (List ℕ × List ℕ) → Except RbError (List (List ℕ)))
    (shaHex blake64 : List ℕ → List ℕ) (ks : ℕ → ℕ) (tag : List ℕ → List ℕ)
    (kSize vSize : ℕ) (venc : A → List ℕ) (input : List (ℕ × List A)) :
    (vhSetup okvsEnc shaHex blake64 ks tag kSize vSize venc input).isSome =
      (buildPairList shaHex blake64 ks tag kSize vSize venc
        clientStateDefault.kf input).isSome := by
  rcases hb : buildPairList shaHex blake64 ks tag kSize vSize venc
      clientStateDefault.kf input with _ | pairs
  · simp [vhSetup, hb]
  · simp only [vhSetup, hb]
    rcases he : okvsEnc pairs with e | enc <;> simp [he]

/-- C10.  With at least one value present, `setup` completes without
panicking exactly when the cell size constant `OKVS_V_SIZE` equals
`H_LEN + V::len() + 16` (64-byte label, encoded value, AEAD tag); for any
other cell size the ciphertext copy into the fixed-size cell panics. -/
theorem c10_cell_size_precondition {A : Type}
    (okvsEnc : List (List ℕ × List ℕ) → Except RbError (List (List ℕ)))
    (shaHex blake64 : List ℕ → List ℕ) (ks : ℕ → ℕ) (tag : List ℕ → List ℕ)
    (kSize vSize vlen : ℕ) (venc : A → List ℕ) (input : List (ℕ × List A))
    (hsha : ∀ x, (shaHex x).length = 64)
    (hvenc : ∀ v : A, (venc v).length = vlen)
    (htag : ∀ pt, (tag pt).length = 16)
    (hne : ∃ kv ∈ input, kv.2 ≠ ([] : List A)) :
    (vhSetup okvsEnc shaHex blake64 ks tag kSize vSize venc input).isSome = true ↔
      vSize = 64 + vlen + 16 := by
  rw [vhSetup_isSome, buildPairList_isSome]
  constructor
  · intro hall
    obtain ⟨⟨key, vs⟩, hmem, hvs⟩ := hne
    rcases hv : vs with _ | ⟨v0, vrest⟩
    · exact absurd hv hvs
    · have hcell := hall ⟨key, vs⟩ hmem
      rw [buildCellList_isSome] at hcell
      have hev := hcell ⟨0, v0⟩ (by rw [hv]; simp [List.enum])
      rw [encodeValue_isSome ks tag vSize _ _ htag] at hev
      have hl : (labelOf shaHex clientStateDefault.kf ((key, vs).1)).length = 64 := hsha _
      have hv0 : (venc ((0 : ℕ), v0).2).length = vlen := hvenc v0
      omega
  · intro hsize kv _
    rw [buildCellList_isSome]
    intro jv _
    rw [encodeValue_isSome ks tag vSize _ _ htag]
    have hl : (labelOf shaHex clientStateDefault.kf kv.1).length = 64 := hsha _
    have hv0 := hvenc jv.2
    omega

theorem c10_cell_size_precondition_witness :
    (∀ x : List ℕ, ((fun _ : List ℕ => List.replicate 64 0) x).length = 64) ∧
    (∀ v : ℕ, ((fun _ : ℕ => [0, 0, 0, 0]) v).length = 4) ∧
    (∀ pt : List ℕ, ((fun _ : List ℕ => List.replicate 16 0) pt).length = 16) ∧
    (∃ kv ∈ [((3 : ℕ), [(9 : ℕ)])], kv.2 ≠ ([] : List ℕ)) ∧
    ((vhSetup (A := ℕ) (fun _ => .ok []) (fun _ => List.replicate 64 0)
        (fun _ => []) (fun _ => 0) (fun _ => List.replicate 16 0) 8 84
        (fun _ => [0, 0, 0, 0]) [(3, [9])]).isSome = true ↔
      (84 : ℕ) = 64 + 4 + 16) := by
  refine ⟨?_, ?_, ?_, ?_, ?_⟩
  · intro x
    simp
  · intro v
    simp
  · intro pt
    simp
  · exact ⟨(3, [9]), by simp, by simp⟩
  · exact c10_cell_size_precondition (fun _ => .ok []) (fun _ => List.replicate 64 0)
      (fun _ => []) (fun _ => 0) (fun _ => List.replicate 16 0) 8 84 4
      (fun _ => [0, 0, 0, 0]) [(3, [9])]
      (fun x => by simp) (fun v => by simp) (fun pt => by simp)
      ⟨(3, [9]), by simp, by simp⟩

/-! ### Claim C8: query error behaviour -/

theorem ctrMask_append (ks : ℕ → ℕ) : ∀ (a b : List ℕ) (i : ℕ),
    ctrMask ks i (a ++ b) = ctrMask ks i a ++ ctrMask ks (i + a.length) b := by
  intro a
  induction a with
  | nil => simp [ctrMask]
  | cons p rest ih =>
    intro b i
    simp only [List.cons_append, ctrMask, List.length_cons, List.append_eq]
    rw [ih]
    have harith : i + 1 + rest.length = i + (rest.length + 1) := by omega
    rw [harith]

/-- Masking twice with the same keystream restores the bytes (CTR with a
repeated nonce is an involution on the masked prefix). -/
theorem ctrMask_ctrMask (ks : ℕ → ℕ) : ∀ (l : List ℕ) (i : ℕ),
    ctrMask ks i (ctrMask ks i l) = l := by
  intro l
  induction l with
  | nil => intro i; rfl
  | cons p rest ih =>
    intro i
    simp only [ctrMask, ih]
    rw [Nat.xor_cancel_right]

/-- Opening a freshly sealed cell returns the label and the decoded value
bytes: `decode_value ∘ encode_value` works because both call `encrypt`
with the same key and the constant zero nonce. -/
theorem decodeValue_enc {A : Type} (ks : ℕ → ℕ) (tag : List ℕ → List ℕ)
    (vdec : List ℕ → A) (vlenB : ℕ) (h vb : List ℕ)
    (hh : h.length = 64) (hv : vb.length = vlenB) :
    decodeValue ks tag vdec vlenB (aesEnc ks tag (h ++ vb)) = (h, vdec vb) := by
  simp only [decodeValue, aesEnc]
  rw [ctrMask_append, ctrMask_ctrMask]
  have hlen : 64 ≤ (h ++ vb).length := by
    simp [hh]
  rw [List.append_assoc]
  rw [List.take_append_of_le_length hlen, List.drop_append_of_le_length hlen]
  rw [List.take_left' hh, List.drop_left' hh]
  rw [List.take_left' hv]

theorem checkCells_map_allok {A : Type} (ks : ℕ → ℕ) (tag : List ℕ → List ℕ)
    (vdec : List ℕ → A) (vlenB : ℕ) (h : List ℕ) (f : ℕ → List ℕ) :
    ∀ (n i0 : ℕ),
      (∀ j < n, (decodeValue ks tag vdec vlenB (f (i0 + j))).1 = h) →
      checkCells ks tag vdec vlenB h i0 ((List.range' i0 n).map f)
        = .ok ((List.range' i0 n).map
            (fun i => (decodeValue ks tag vdec vlenB (f i)).2)) := by
  intro n
  induction n with
  | zero => intro i0 _; rfl
  | succ m ih =>
    intro i0 hall
    rw [List.range'_succ i0 m 1]
    have h0 : (decodeValue ks tag vdec vlenB (f i0)).1 = h := by
      have := hall 0 (by omega)
      simpa using this
    have hrest := ih (i0 + 1) (fun j hj => by
      have := hall (j + 1) (by omega)
      have harith : i0 + (j + 1) = i0 + 1 + j := by omega
      rw [harith] at this
      exact this)
    simp only [List.map_cons, checkCells, h0]
    rw [if_neg (by simp), hrest]

theorem checkCells_map_bad {A : Type} (ks : ℕ → ℕ) (tag : List ℕ → List ℕ)
    (vdec : List ℕ → A) (vlenB : ℕ) (h : List ℕ) (f : ℕ → List ℕ) :
    ∀ (n i0 k : ℕ), k < n →
      (∀ j < k, (decodeValue ks tag vdec vlenB (f (i0 + j))).1 = h) →
      (decodeValue ks tag vdec vlenB (f (i0 + k))).1 ≠ h →
      checkCells ks tag vdec vlenB h i0 ((List.range' i0 n).map f)
        = .error (.decode (i0 + k)) := by
  intro n
  induction n with
  | zero => intro i0 k hk; omega
  | succ m ih =>
    intro i0 k hk hgood hbad
    rw [List.range'_succ i0 m 1]
    cases k with
    | zero =>
      rw [Nat.add_zero] at hbad
      simp only [List.map_cons, checkCells]
      rw [if_pos hbad, Nat.add_zero]
    | succ k2 =>
      have h0 : (decodeValue ks tag vdec vlenB (f i0)).1 = h := by
        have := hgood 0 (by omega)
        simpa using this
      have hrest := ih (i0 + 1) k2 (by omega)
        (fun j hj => by
          have := hgood (j + 1) (by omega)
          have harith : i0 + (j + 1) = i0 + 1 + j := by omega
          rw [harith] at this
          exact this)
        (by
          have harith : i0 + 1 + k2 = i0 + (k2 + 1) := by omega
          rw [harith]
          exact hbad)
      simp only [List.map_cons, checkCells, h0]
      rw [if_neg (by simp), hrest]
      have harith : i0 + 1 + k2 = i0 + (k2 + 1) := by omega
      rw [harith]

/-- C8.  For every query, either every one of the `v_len` decrypted cells
carries the 64-byte label `h = H(k_F ‖ k)` as prefix — and then the query
returns all `v_len` decoded values, in slot order — or the query returns
`Err(Decode(k))` for the smallest slot `k` whose decrypted label prefix
differs from `h`, returning no values at all. -/
theorem c8_query_error_behaviour {A : Type}
    (okvsDec : List (List ℕ) → List ℕ → List ℕ)
    (shaHex blake64 : List ℕ → List ℕ) (ks : ℕ → ℕ) (tag : List ℕ → List ℕ)
    (vdec : List ℕ → A) (kSize vlenB key vLen : ℕ)
    (cs : ClientState) (enc : List (List ℕ)) :
    ((∀ i < vLen, (decodeValue ks tag vdec vlenB
        (okvsDec enc (createKey blake64 kSize (labelOf shaHex cs.kf key) i))).1
        = labelOf shaHex cs.kf key) →
      vhQuery okvsDec shaHex blake64 ks tag vdec kSize vlenB key vLen cs enc
        = .ok ((List.range vLen).map (fun i => (decodeValue ks tag vdec vlenB
            (okvsDec enc (createKey blake64 kSize (labelOf shaHex cs.kf key) i))).2))) ∧
    (∀ k < vLen,
      (∀ j < k, (decodeValue ks tag vdec vlenB
        (okvsDec enc (createKey blake64 kSize (labelOf shaHex cs.kf key) j))).1
        = labelOf shaHex cs.kf key) →
      (decodeValue ks tag vdec vlenB
        (okvsDec enc (createKey blake64 kSize (labelOf shaHex cs.kf key) k))).1
        ≠ labelOf shaHex cs.kf key →
      vhQuery okvsDec shaHex blake64 ks tag vdec kSize vlenB key vLen cs enc
        = .error (.decode k)) := by
  constructor
  · intro hall
    unfold vhQuery
    rw [List.range_eq_range' vLen]
    exact checkCells_map_allok ks tag vdec vlenB (labelOf shaHex cs.kf key)
      (fun i => okvsDec enc (createKey blake64 kSize (labelOf shaHex cs.kf key) i))
      vLen 0 (fun j hj => by simpa using hall j hj)
  · intro k hk hgood hbad
    unfold vhQuery
    rw [List.range_eq_range' vLen]
    have := checkCells_map_bad ks tag vdec vlenB (labelOf shaHex cs.kf key)
      (fun i => okvsDec enc (createKey blake64 kSize (labelOf shaHex cs.kf key) i))
      vLen 0 k hk (fun j hj => by simpa using hgood j hj) (by simpa using hbad)
    simpa using this

theorem c8_query_error_behaviour_witness :
    (0 : ℕ) < 1 ∧
    (decodeValue (fun _ => 0) (fun _ => List.replicate 16 0) (fun bs => bs) 1
        ((fun (_ : List (List ℕ)) (_ : List ℕ) => ([] : List ℕ))
          [] (createKey (fun _ => []) 8 (labelOf (fun _ => [9]) clientStateDefault.kf 5) 0))).1
      ≠ labelOf (fun _ => [9]) clientStateDefault.kf 5 ∧
    vhQuery (A := List ℕ) (fun _ _ => []) (fun _ => [9]) (fun _ => [])
        (fun _ => 0) (fun _ => List.replicate 16 0) (fun bs => bs) 8 1 5 1
        clientStateDefault [] = .error (.decode 0) :=
  ⟨by norm_num, by decide,
    (c8_query_error_behaviour (fun _ _ => []) (fun _ => [9]) (fun _ => [])
      (fun _ => 0) (fun _ => List.replicate 16 0) (fun bs => bs) 8 1 5 1
      clientStateDefault []).2 0 (by norm_num) (fun j hj => by omega) (by decide)⟩

/-! ### Claim C2: the EMM round trip -/

/-- A successful cell expansion is exactly the per-index map of sub-key
and sealed cell. -/
theorem buildCellList_some_map {A : Type} (blake64 : List ℕ → List ℕ) (ks : ℕ → ℕ)
    (tag : List ℕ → List ℕ) (kSize vSize : ℕ) (venc : A → List ℕ) (h : List ℕ) :
    ∀ (l : List (ℕ × A)) (out : List (List ℕ × List ℕ)),
      buildCellList blake64 ks tag kSize vSize venc h l = some out →
      out = l.map (fun jv =>
        (createKey blake64 kSize h jv.1, aesEnc ks tag (h ++ venc jv.2))) := by
  intro l
  induction l with
  | nil =>
    intro out hout
    cases hout
    rfl
  | cons jv rest ih =>
    intro out hout
    rcases jv with ⟨j, v⟩
    rcases hev : encodeValue ks tag vSize h (venc v) with _ | c
    · rw [buildCellList, hev] at hout
      cases hout
    · rcases hrest : buildCellList blake64 ks tag kSize vSize venc h rest with _ | cs
      · rw [buildCellList, hev, hrest] at hout
        cases hout
      · rw [buildCellList, hev, hrest] at hout
        cases hout
        have hc : c = aesEnc ks tag (h ++ venc v) := by
          unfold encodeValue at hev
          by_cases hlen : (aesEnc ks tag (h ++ venc v)).length = vSize
          · rw [if_pos hlen] at hev
            exact (Option.some.inj hev).symm
          · rw [if_neg hlen] at hev
            cases hev
        rw [List.map_cons, hc, ih cs hrest]

/-- Every input pair's expansion block is contained in the full pair
list. -/
theorem buildPairList_block {A : Type} (shaHex blake64 : List ℕ → List ℕ)
    (ks : ℕ → ℕ) (tag : List ℕ → List ℕ) (kSize vSize : ℕ) (venc : A → List ℕ)
    (kf : List ℕ) :
    ∀ (input : List (ℕ × List A)) (pairs : List (List ℕ × List ℕ))
      (key : ℕ) (vs : List A),
      buildPairList shaHex blake64 ks tag kSize vSize venc kf input = some pairs →
      (key, vs) ∈ input →
      ∃ block, buildCellList blake64 ks tag kSize vSize venc
          (labelOf shaHex kf key) vs.enum = some block ∧
        ∀ x ∈ block, x ∈ pairs := by
  intro input
  induction input with
  | nil =>
    intro pairs key vs _ hmem
    cases hmem
  | cons kv rest ih =>
    intro pairs key vs hbuild hmem
    rcases kv with ⟨key2, vs2⟩
    rcases hcl : buildCellList blake64 ks tag kSize vSize venc
        (labelOf shaHex kf key2) vs2.enum with _ | cs
    · rw [buildPairList, hcl] at hbuild
      cases hbuild
    · rcases hrest : buildPairList shaHex blake64 ks tag kSize vSize venc kf rest
          with _ | more
      · rw [buildPairList, hcl, hrest] at hbuild
        cases hbuild
      · rw [buildPairList, hcl, hrest] at hbuild
        cases hbuild
        rcases List.mem_cons.mp hmem with hhd | htl
        · have hk : key2 = key ∧ vs2 = vs := by
            have h1 := congrArg Prod.fst hhd
            have h2 := congrArg Prod.snd hhd
            simp at h1 h2
            exact ⟨h1.symm, h2.symm⟩
          rcases hk with ⟨rfl, rfl⟩
          exact ⟨cs, hcl, fun x hx => List.mem_append.mpr (Or.inl hx)⟩
        · obtain ⟨block, hbl, hsub⟩ := ih more key vs hrest htl
          exact ⟨block, hbl, fun x hx => List.mem_append.mpr (Or.inr (hsub x hx))⟩

/-- The client loop accepts a run of cells that decode to the expected
label and values. -/
theorem checkCells_map_vals {A : Type} (ks : ℕ → ℕ) (tag : List ℕ → List ℕ)
    (vdec : List ℕ → A) (vlenB : ℕ) (h : List ℕ) (f : ℕ → List ℕ) :
    ∀ (vs : List A) (i0 : ℕ),
      (∀ iv ∈ (List.range' i0 vs.length).zip vs,
        decodeValue ks tag vdec vlenB (f iv.1) = (h, iv.2)) →
      checkCells ks tag vdec vlenB h i0 ((List.range' i0 vs.length).map f)
        = .ok vs := by
  intro vs
  induction vs with
  | nil => intro i0 _; rfl
  | cons v rest ih =>
    intro i0 hall
    rw [List.length_cons, List.range'_succ i0 rest.length 1]
    have h0 : decodeValue ks tag vdec vlenB (f i0) = (h, v) := by
      apply hall (i0, v)
      simp only [List.length_cons, List.range'_succ, List.zip_cons_cons]
      exact List.mem_cons_self _ _
    have hrest := ih (i0 + 1) (fun iv hiv => by
      apply hall iv
      simp only [List.length_cons, List.range'_succ, List.zip_cons_cons]
      exact List.mem_cons_of_mem _ hiv)
    simp only [List.map_cons, checkCells, h0]
    rw [if_neg (by simp), hrest]

/-- C2.  Under the interface contracts of the collaborators — 64-byte
labels, fixed-width value encoding with `decode ∘ encode = id`, 16-byte
AEAD tags — and under the OKVS round-trip contract for the encoded pair
list (spec invariant 1 for the `T: Okvs` parameter), a successful `setup`
followed by `query(k, m, cs, enc)` for any inserted pair `(k, values)`
with `|values| = m` returns exactly `values`, in order. -/
theorem c2_emm_roundtrip {A : Type}
    (okvsEnc : List (List ℕ × List ℕ) → Except RbError (List (List ℕ)))
    (okvsDec : List (List ℕ) → List ℕ → List ℕ)
    (shaHex blake64 : List ℕ → List ℕ) (ks : ℕ → ℕ) (tag : List ℕ → List ℕ)
    (kSize vSize vlen : ℕ) (venc : A → List ℕ) (vdec : List ℕ → A)
    (input : List (ℕ × List A)) (key : ℕ) (values : List A) (m : ℕ)
    (enc : List (List ℕ)) (cs : ClientState)
    (hsha : ∀ x, (shaHex x).length = 64)
    (hvenc : ∀ v, (venc v).length = vlen)
    (hvdec : ∀ v, vdec (venc v) = v)
    (hRT : ∀ (p : List ℕ × List ℕ) (pairs : List (List ℕ × List ℕ)),
      buildPairList shaHex blake64 ks tag kSize vSize venc
        clientStateDefault.kf input = some pairs →
      okvsEnc pairs = .ok enc → p ∈ pairs → okvsDec enc p.1 = p.2)
    (hset : vhSetup okvsEnc shaHex blake64 ks tag kSize vSize venc input
      = some (.ok (enc, cs)))
    (hmem : (key, values) ∈ input)
    (hm : values.length = m) :
    vhQuery okvsDec shaHex blake64 ks tag vdec kSize vlen key m cs enc
      = .ok values := by
  rcases hb : buildPairList shaHex blake64 ks tag kSize vSize venc
      clientStateDefault.kf input with _ | pairs
  · simp only [vhSetup, hb] at hset
    exact Option.noConfusion hset
  · simp only [vhSetup, hb] at hset
    rcases he : okvsEnc pairs with e | enc2
    · rw [he] at hset
      simp at hset
    · rw [he] at hset
      have h1 := Option.some.inj hset
      have h2 := Except.ok.inj h1
      have hene : enc2 = enc := congrArg Prod.fst h2
      have hcs : cs = clientStateDefault := by
        have h3 := congrArg Prod.snd h2
        simp at h3
        exact h3.symm
      rw [hene] at he
      obtain ⟨block, hbl, hsub⟩ := buildPairList_block shaHex blake64 ks tag
        kSize vSize venc clientStateDefault.kf input pairs key values hb hmem
      have hblock := buildCellList_some_map blake64 ks tag kSize vSize venc
        (labelOf shaHex clientStateDefault.kf key) values.enum block hbl
      unfold vhQuery
      rw [hcs, List.range_eq_range' m, ← hm]
      apply checkCells_map_vals
      intro iv hiv
      have hivenum : iv ∈ values.enum := by
        rw [List.enum_eq_zip_range, List.range_eq_range' values.length]
        exact hiv
      have hpairmem : (createKey blake64 kSize
            (labelOf shaHex clientStateDefault.kf key) iv.1,
          aesEnc ks tag (labelOf shaHex clientStateDefault.kf key ++ venc iv.2))
          ∈ pairs := by
        apply hsub
        rw [hblock]
        exact List.mem_map.mpr ⟨iv, hivenum, rfl⟩
      have hdec := hRT _ pairs hb he hpairmem
      rw [hdec]
      rw [decodeValue_enc ks tag vdec vlen
        (labelOf shaHex clientStateDefault.kf key) (venc iv.2)
        (show (labelOf shaHex clientStateDefault.kf key).length = 64 from hsha _)
        (hvenc _)]
      rw [hvdec]

/-- The OKVS sub-key of the C2 witness instance. -/
def c2wKey : List ℕ := List.replicate 8 2

/-- The sealed cell of the C2 witness instance: zero keystream, so the
cell is label ‖ value byte ‖ tag. -/
def c2wCell : List ℕ := (List.replicate 64 1 ++ [7]) ++ List.replicate 16 3

theorem c2_emm_roundtrip_witness :
    vhSetup (A := ℕ) (fun ps => .ok (ps.map Prod.snd)) (fun _ => List.replicate 64 1)
        (fun _ => List.replicate 64 2) (fun _ => 0) (fun _ => List.replicate 16 3)
        8 81 (fun v => [v]) [(5, [7])]
      = some (.ok ([c2wCell], clientStateDefault)) ∧
    (5, [7]) ∈ [((5 : ℕ), [(7 : ℕ)])] ∧
    vhQuery (fun e _ => e.getD 0 []) (fun _ => List.replicate 64 1)
        (fun _ => List.replicate 64 2) (fun _ => 0) (fun _ => List.replicate 16 3)
        (fun bs => bs.getD 0 0) 8 1 5 1 clientStateDefault [c2wCell]
      = .ok [7] := by
  have hset : vhSetup (A := ℕ) (fun ps => .ok (ps.map Prod.snd))
      (fun _ => List.replicate 64 1) (fun _ => List.replicate 64 2) (fun _ => 0)
      (fun _ => List.replicate 16 3) 8 81 (fun v => [v]) [(5, [7])]
      = some (.ok ([c2wCell], clientStateDefault)) := by decide
  have hrt : ∀ (p : List ℕ × List ℕ) (pairs : List (List ℕ × List ℕ)),
      buildPairList (fun _ => List.replicate 64 1) (fun _ => List.replicate 64 2)
        (fun _ => 0) (fun _ => List.replicate 16 3) 8 81 (fun v : ℕ => [v])
        clientStateDefault.kf [(5, [7])] = some pairs →
      (fun ps => (.ok (ps.map Prod.snd) : Except RbError (List (List ℕ)))) pairs
        = .ok [c2wCell] →
      p ∈ pairs → (fun (e : List (List ℕ)) (_ : List ℕ) => e.getD 0 []) [c2wCell] p.1 = p.2 := by
    intro p pairs hb _ hp
    have hbl : buildPairList (fun _ => List.replicate 64 1) (fun _ => List.replicate 64 2)
        (fun _ => 0) (fun _ => List.replicate 16 3) 8 81 (fun v : ℕ => [v])
        clientStateDefault.kf [(5, [7])] = some [(c2wKey, c2wCell)] := by decide
    rw [hbl] at hb
    have hpairs : pairs = [(c2wKey, c2wCell)] := (Option.some.inj hb).symm
    subst hpairs
    simp at hp
    subst hp
    decide
  exact ⟨hset, by simp,
    c2_emm_roundtrip (fun ps => .ok (ps.map Prod.snd)) (fun e _ => e.getD 0 [])
      (fun _ => List.replicate 64 1) (fun _ => List.replicate 64 2)
      (fun _ => 0) (fun _ => List.replicate 16 3)
      8 81 1 (fun v => [v]) (fun bs => bs.getD 0 0)
      [(5, [7])] 5 [7] 1 [c2wCell] clientStateDefault
      (fun x => by simp) (fun v => rfl) (fun v => rfl)
      hrt hset (by simp) rfl⟩
